import Mathlib

/-!
Verification of the client data-access layer and backend handlers of the
investment-research report manager (utils/api.ts, SortManager.tsx, App.tsx,
supabase/functions/server/company-handlers.tsx, report/comment handlers).

Conventions of the embedding:
* JavaScript values flowing through the API layer are modelled by the
  inductive type Json; the JavaScript undefined that appears as the result
  of a missing object property is modelled by Option Json with none for
  undefined.
* Timestamps (Date.now(), new Date(x).getTime()) are integers (epoch
  milliseconds).
* The module-level Map objects (cache, pendingRequests) are association
  lists; Map.get / Map.set / Map.delete are lookup / in-place upsert /
  filter on them.
* Asynchronous execution is split at its suspension points: makeRequest is
  embedded as makeRequestStart (the synchronous prefix up to and including
  issuing fetch and registering the pending promise) and
  makeRequestComplete (the then/catch continuation that runs when the
  response arrives).  JavaScript is single threaded, so each of the two
  halves runs atomically.
-/

namespace InvestApp

/-- JSON / JavaScript values carried by the API layer.  A missing object
property (undefined) is represented by functions returning Option Json. -/
inductive Json where
  | null : Json
  | bool (b : Bool) : Json
  | num (n : Int) : Json
  | str (s : String) : Json
  | arr (elems : List Json) : Json
  | obj (fields : List (String × Json)) : Json

/-- Property lookup on a list of object fields, first match wins. -/
def findField : List (String × Json) → String → Option Json
  | [], _ => none
  | (k, v) :: rest, key => if k = key then some v else findField rest key

/-- JavaScript property access result.get on a Json value: undefined (none)
for a missing field and for any non-object receiver appearing here. -/
def jsonGet : Json → String → Option Json
  | .obj fs, key => findField fs key
  | _, _ => none

/-- JavaScript truthiness of a value, as used by the checks
if (cached), if (!result.success) and result.error || default in
utils/api.ts. -/
def jsTruthy : Json → Bool
  | .null => false
  | .bool b => b
  | .num n => decide (n ≠ 0)
  | .str s => decide (s ≠ "")
  | .arr _ => true
  | .obj _ => true

/-- Truthiness of a possibly-undefined value. -/
def jsTruthyOpt : Option Json → Bool
  | none => false
  | some j => jsTruthy j

/-! Cache management, utils/api.ts lines 15-41. -/

/-- One entry of the module level cache map: cache.set(key, \x7b data, timestamp \x7d). -/
structure CacheEntry where
  data : Json
  timestamp : Int

/-- The cache Map, keyed by cache-key strings. -/
abbrev Cache := List (String × CacheEntry)

/-- Five minutes in milliseconds: CACHE_DURATION = 5 * 60 * 1000. -/
def CACHE_DURATION : Int := 5 * 60 * 1000

/-- Map.get on the cache. -/
def cacheFind : Cache → String → Option CacheEntry
  | [], _ => none
  | (k, e) :: rest, key => if k = key then some e else cacheFind rest key

/-- Map.set on the cache: replace the value of an existing key in place,
otherwise append the new binding. -/
def cacheStore : Cache → String → CacheEntry → Cache
  | [], key, e => [(key, e)]
  | (k, e0) :: rest, key, e =>
    if k = key then (k, e) :: rest else (k, e0) :: cacheStore rest key e

/-- getCachedData (api.ts 23-29): return the stored data when the entry is
strictly younger than CACHE_DURATION, else null.  The JavaScript function
returns null both when the key is absent and when the entry has expired
(expired entries are left in the map). -/
def getCachedData (c : Cache) (key : String) (now : Int) : Json :=
  match cacheFind c key with
  | some cached => if now - cached.timestamp < CACHE_DURATION then cached.data else Json.null
  | none => Json.null

/-- setCachedData (api.ts 31-33). -/
def setCachedData (c : Cache) (key : String) (d : Json) (now : Int) : Cache :=
  cacheStore c key { data := d, timestamp := now }

/-- JavaScript String.prototype.includes, used by clearCachePattern. -/
def strIncludes (s pat : String) : Bool :=
  decide (pat.data <:+: s.data)

/-- clearCachePattern (api.ts 35-41): delete every entry whose key contains
the given substring. -/
def clearCachePattern (c : Cache) (pat : String) : Cache :=
  c.filter (fun kv => !(strIncludes kv.1 pat))

/-! Request serialization.  The deduplication key of makeRequest is
url + '_' + JSON.stringify(options) (api.ts line 60).  The call sites in
api.ts build the options object with the field order method, headers,
body, each field omitted when not passed, which fixes the key order that
JSON.stringify observes. -/

/-- Values of a FormData entry: plain string fields or an appended File. -/
inductive FormValue where
  | str (s : String) : FormValue
  | file (name : String) (size : Int) : FormValue
deriving DecidableEq

/-- Request body: either a JSON string produced by JSON.stringify at the
call site, or a FormData object. -/
inductive BodyVal where
  | str (s : String) : BodyVal
  | form (entries : List (String × FormValue)) : BodyVal
deriving DecidableEq

/-- The options objects passed to makeRequest. -/
structure RequestInit where
  method : Option String := none
  headers : Option (List (String × String)) := none
  body : Option BodyVal := none
deriving DecidableEq

/-- JSON string escaping of JSON.stringify restricted to the two characters
that need it in the strings this codebase produces. -/
def escapeJson (s : String) : String :=
  String.mk (s.data.flatMap (fun ch =>
    if ch = '\\' then ['\\', '\\']
    else if ch = '"' then ['\\', '"']
    else [ch]))

/-- Quoted JSON string literal. -/
def quoteJson (s : String) : String := "\"" ++ escapeJson s ++ "\""

/-- JSON.stringify of a flat string-to-string object such as the headers. -/
def stringifyPairs (ps : List (String × String)) : String :=
  "\x7b" ++ String.intercalate "," (ps.map (fun p => quoteJson p.1 ++ ":" ++ quoteJson p.2)) ++ "\x7d"

/-- JSON.stringify of a request body value.  A FormData object has no
enumerable own properties and no toJSON, so JSON.stringify serializes it
to "\x7b\x7d" whatever its entries are. -/
def stringifyBody : BodyVal → String
  | .str s => quoteJson s
  | .form _ => "\x7b\x7d"

/-- JSON.stringify of the options object; undefined fields are omitted. -/
def stringifyOpts (o : RequestInit) : String :=
  "\x7b" ++ String.intercalate "," (List.filterMap id
    [o.method.map (fun m => "\"method\":" ++ quoteJson m),
     o.headers.map (fun hs => "\"headers\":" ++ stringifyPairs hs),
     o.body.map (fun b => "\"body\":" ++ stringifyBody b)]) ++ "\x7d"

/-- The deduplication key: requestKey = url + '_' + JSON.stringify(options)
(api.ts line 60). -/
def requestKey (url : String) (o : RequestInit) : String :=
  url ++ "_" ++ stringifyOpts o

/-! The makeRequest state machine, api.ts lines 44-92. -/

/-- Map.get on pendingRequests; the stored promise is identified by a
numeric promise id. -/
def pendFind : List (String × Nat) → String → Option Nat
  | [], _ => none
  | (k, p) :: rest, key => if k = key then some p else pendFind rest key

/-- Map.delete on pendingRequests. -/
def pendErase (l : List (String × Nat)) (key : String) : List (String × Nat) :=
  l.filter (fun kv => decide (kv.1 ≠ key))

/-- Process-wide mutable client state: the cache map, the pendingRequests
map, a supply of fresh promise ids, and a count of network fetches
actually issued (one per fetch(url, options) call). -/
structure ClientState where
  cache : Cache
  pending : List (String × Nat)
  nextPid : Nat
  fetches : Nat

/-- State at page load: both maps empty, nothing fetched. -/
def emptyClient : ClientState := ⟨[], [], 0, 0⟩

/-- Condition under which makeRequest consults and fills the cache:
cacheKey && (!options.method || options.method === 'GET')
(api.ts lines 52 and 80); a cacheKey that is the empty string is falsy. -/
def isGetLike (o : RequestInit) : Bool :=
  o.method.isNone || (o.method == some "GET")

/-- Result of the cache check at the top of makeRequest: some v when the
function returns the cached value v, none when execution falls through to
the deduplication step.  Falls through when no cacheKey was passed, for
non-GET methods, on a stale entry, and when the cached data is falsy
(the code tests if (cached)). -/
def cacheHit (c : Cache) (cacheKey : Option String) (o : RequestInit) (now : Int) : Option Json :=
  match cacheKey with
  | some ck =>
    if ck ≠ "" ∧ isGetLike o then
      let cached := getCachedData c ck now
      if jsTruthy cached then some cached else none
    else none
  | none => none

/-- What the synchronous prefix of makeRequest hands back to its caller. -/
inductive StartResult where
  | cached (v : Json) : StartResult
  | joined (pid : Nat) : StartResult
  | fetched (pid : Nat) : StartResult

/-- Synchronous prefix of makeRequest (api.ts 51-92): check the cache,
then pendingRequests; on a miss of both, issue the fetch, register the new
promise under the request key and return it. -/
def makeRequestStart (s : ClientState) (url : String) (o : RequestInit)
    (cacheKey : Option String) (now : Int) : StartResult × ClientState :=
  match cacheHit s.cache cacheKey o now with
  | some v => (.cached v, s)
  | none =>
    let k := requestKey url o
    match pendFind s.pending k with
    | some pid => (.joined pid, s)
    | none =>
      (.fetched s.nextPid,
        { s with pending := (k, s.nextPid) :: s.pending,
                 nextPid := s.nextPid + 1,
                 fetches := s.fetches + 1 })

/-- Outcome of the fetch promise: network rejection, or an HTTP response
with status, raw body text and parsed JSON body. -/
inductive FetchOutcome where
  | netError (msg : String) : FetchOutcome
  | response (status : Nat) (bodyText : String) (json : Json) : FetchOutcome

/-- Errors thrown by the client layer: thrown is new Error(msg) raised by
makeRequest itself, typeError is the runtime TypeError raised by a
property access on undefined or null. -/
inductive JsError where
  | thrown (msg : String) : JsError
  | typeError (msg : String) : JsError
deriving DecidableEq

/-- Message of the application-level failure path
new Error(result.error || 'API request failed') (api.ts line 76).  The
handlers in this repository only ever put a string (or nothing) in the
error field, so the other truthy shapes cannot occur. -/
def jsErrMsg (e : Option Json) : String :=
  match e with
  | some (.str s) => if s = "" then "API request failed" else s
  | _ => "API request failed"

/-- Body of the then-continuation of makeRequest (api.ts 65-84), after the
pendingRequests entry has been removed: non-2xx responses throw
HTTP status: bodyText, a falsy result.success throws the server error
message, otherwise result.data is returned. -/
def processResponse (status : Nat) (bodyText : String) (result : Json) :
    Except JsError (Option Json) :=
  if 200 ≤ status ∧ status ≤ 299 then
    if jsTruthyOpt (jsonGet result "success") then
      .ok (jsonGet result "data")
    else
      .error (.thrown (jsErrMsg (jsonGet result "error")))
  else
    .error (.thrown ("HTTP " ++ toString status ++ ": " ++ bodyText))

/-- Continuation of makeRequest when its fetch settles (api.ts 65-88): the
pending entry is removed on every path (then-branch line 66, catch-branch
line 86), the response is processed, and a successful cacheable GET stores
result.data in the cache.  Caching a data field that was absent stores
null; the two are indistinguishable to every later read because the
if (cached) test rejects both. -/
def makeRequestComplete (s : ClientState) (url : String) (o : RequestInit)
    (cacheKey : Option String) (out : FetchOutcome) (now : Int) :
    Except JsError (Option Json) × ClientState :=
  let s1 := { s with pending := pendErase s.pending (requestKey url o) }
  match out with
  | .netError m => (.error (.thrown m), s1)
  | .response status bodyText j =>
    match processResponse status bodyText j with
    | .error e => (.error e, s1)
    | .ok d =>
      match cacheKey with
      | some ck =>
        if ck ≠ "" ∧ isGetLike o then
          (.ok d, { s1 with cache := setCachedData s1.cache ck (d.getD Json.null) now })
        else (.ok d, s1)
      | none => (.ok d, s1)

/-! Data model (App.tsx type declarations and the records built by the
server handlers).  Timestamps createdAt / updatedAt are kept as epoch
milliseconds, the value new Date(x).getTime() computes on the stored ISO
string; fields are assumed to hold valid dates, as every record written by
the handlers does. -/

/-- Company record (App.tsx 11-21, created in company-handlers.tsx 70-79). -/
structure Company where
  id : String
  name : String
  code : String
  type : String
  description : String
  iconUrl : Option String := none
  order : Option Int := none
  createdAt : Int := 0
  updatedAt : Int := 0
deriving DecidableEq, Repr

/-- Report record (App.tsx 30-43, created in report handlers).  The
comments array embedded in list responses is attached by the list handler
and not part of the stored record's identity; it is omitted here. -/
structure Report where
  id : String
  companyId : String
  title : String
  analyst : String
  category : String
  fileName : String
  fileSize : String
  filePath : String
  order : Option Int := none
  createdAt : Int := 0
  updatedAt : Int := 0
deriving DecidableEq, Repr

/-- Comment record (comment-handlers.tsx 26-30). -/
structure Comment where
  id : String
  content : String
  createdAt : Int := 0
  updatedAt : Option Int := none
deriving DecidableEq, Repr

/-! Display-order comparator.  The same comparator appears in
company-handlers.tsx 18-25, report handlers, CompanyList.tsx 77-85 and
SortManager.tsx 47-54: ascending in order ?? 999999, ties broken by
createdAt descending. -/

/-- Effective sort key of the order field: a ?? 999999. -/
def effOrder (o : Option Int) : Int := o.getD 999999

/-- The comparator body shared by company and report sorting. -/
def cmpOrderCreated (oa ob : Option Int) (ta tb : Int) : Int :=
  if effOrder oa ≠ effOrder ob then effOrder oa - effOrder ob else tb - ta

/-- Comparator instantiated for companies. -/
def companyCmp (a b : Company) : Int :=
  cmpOrderCreated a.order b.order a.createdAt b.createdAt

/-- Insert into a sorted list, keeping the new element before the first
element it does not strictly follow.  Folded from the right over the input
this is a stable sort, which is what Array.prototype.sort guarantees. -/
def insertCmp (cmpf : α → α → Int) (x : α) : List α → List α
  | [] => [x]
  | y :: ys => if cmpf x y ≤ 0 then x :: y :: ys else y :: insertCmp cmpf x ys

/-- Stable comparator sort modelling Array.prototype.sort(cmp). -/
def sortCmp (cmpf : α → α → Int) (l : List α) : List α :=
  l.foldr (insertCmp cmpf) []

/-- The sorted company list computed by the list handler and by
CompanyList.tsx's sortedCompanies. -/
def sortedCompanies (cs : List Company) : List Company :=
  sortCmp companyCmp cs

/-- Comparator instantiated for reports (report list handler). -/
def reportCmp (a b : Report) : Int :=
  cmpOrderCreated a.order b.order a.createdAt b.createdAt

/-! moveItem, SortManager.tsx 86-95. -/

/-- Array.prototype.splice(i, 1) on a list: drop the element at index i. -/
def spliceRemove (l : List α) (i : Nat) : List α :=
  l.take i ++ l.drop (i + 1)

/-- Array.prototype.splice(i, 0, x) on a list: insert x at index i. -/
def spliceInsert (l : List α) (i : Nat) (x : α) : List α :=
  l.take i ++ x :: l.drop i

/-- moveItem (SortManager.tsx 86-95): return unchanged when toIndex is out
of range of the original list, otherwise remove the element at fromIndex
and reinsert it at toIndex.  The none branch of the match is unreachable
for the in-bounds fromIndex the component always passes (the JavaScript
code would splice an undefined in for an out-of-range fromIndex, a
situation its callers moveUp / moveDown never create). -/
def moveItem (l : List α) (fromIndex : Nat) (toIndex : Int) : List α :=
  if toIndex < 0 ∨ (l.length : Int) ≤ toIndex then l
  else
    match l[fromIndex]? with
    | some movedItem => spliceInsert (spliceRemove l fromIndex) toIndex.toNat movedItem
    | none => l

/-! Key-value store model.  The kv_store module itself is not part of the
sources here; per the specification it is a key-value abstraction with
get / set / del / getByPrefix.  The handlers namespace their keys as
company:ID, report:COMPANYID:ID and comment:COMPANYID:REPORTID:ID with
UUID ids that contain no colon, so the string keys are modelled
structurally: prefix queries become queries for one namespace. -/

/-- Modelled from the spec: the key shapes the handlers store under; the
kv_store source is not available, only its callers.  A structural key
stands for the corresponding colon-separated string key. -/
inductive Key where
  | company (id : String) : Key
  | report (companyId id : String) : Key
  | comment (companyId reportId id : String) : Key
deriving DecidableEq, Repr

/-- Stored values. -/
inductive KVal where
  | company (c : Company) : KVal
  | report (r : Report) : KVal
  | comment (m : Comment) : KVal
deriving DecidableEq, Repr

/-- Modelled from the spec: the key-value store behind the handlers, an
association list of unique keys. -/
abbrev KV := List (Key × KVal)

/-- Modelled from the spec: kv.get. -/
def kvGet : KV → Key → Option KVal
  | [], _ => none
  | (k, v) :: rest, key => if k = key then some v else kvGet rest key

/-- Modelled from the spec: kv.set, an upsert that replaces in place. -/
def kvSet : KV → Key → KVal → KV
  | [], key, v => [(key, v)]
  | (k, v0) :: rest, key, v =>
    if k = key then (k, v) :: rest else (k, v0) :: kvSet rest key v

/-- Modelled from the spec: kv.del. -/
def kvDel (s : KV) (key : Key) : KV :=
  s.filter (fun e => decide (e.1 ≠ key))

/-- Modelled from the spec: kv.getByPrefix('company:'), yielding the
stored company records. -/
def companiesIn (s : KV) : List Company :=
  s.filterMap (fun e =>
    match e with
    | (Key.company _, KVal.company c) => some c
    | _ => none)

/-- Modelled from the spec: kv.getByPrefix('report:' + companyId + ':'). -/
def reportsIn (s : KV) (companyId : String) : List Report :=
  s.filterMap (fun e =>
    match e with
    | (Key.report cid _, KVal.report r) => if cid = companyId then some r else none
    | _ => none)

/-- Modelled from the spec: kv.getByPrefix of a comment namespace. -/
def commentsIn (s : KV) (companyId reportId : String) : List Comment :=
  s.filterMap (fun e =>
    match e with
    | (Key.comment cid rid _, KVal.comment m) =>
      if cid = companyId ∧ rid = reportId then some m else none
    | _ => none)

/-- Well-formedness of one store entry: the record stored under a key
repeats the ids of that key, which is how every handler writes them. -/
def wfEntry : Key × KVal → Bool
  | (Key.company id, KVal.company c) => decide (c.id = id)
  | (Key.report cid rid, KVal.report r) => decide (r.id = rid ∧ r.companyId = cid)
  | (Key.comment _ _ mid, KVal.comment m) => decide (m.id = mid)
  | _ => false

/-- Well-formed store: every entry well formed.  The handlers only ever
write entries of this shape. -/
def KVWF (s : KV) : Prop := ∀ e ∈ s, wfEntry e = true

/-! Company handlers, company-handlers.tsx. -/

/-- GET /companies (company-handlers.tsx 13-32): fetch all company records
and sort them with the shared comparator. -/
def listCompanies (s : KV) : List Company :=
  sortCmp companyCmp (companiesIn s)

/-- The max-order fold of the create handler (company-handlers.tsx 64-68):
companies.reduce((max, company) => Math.max(max, company.order ?? 0), -1). -/
def maxOrderOf (cs : List Company) : Int :=
  cs.foldl (fun mx c => max mx (c.order.getD 0)) (-1)

/-- POST /companies (company-handlers.tsx 52-88): validate the required
fields, auto-assign order maxOrder + 1, store and return the record.  The
fresh UUID and the current time are passed in as newId and t. -/
def createCompany (s : KV) (name code type description : String)
    (newId : String) (t : Int) : Option (KV × Company) :=
  if name = "" ∨ code = "" ∨ type = "" then none
  else
    let maxOrder := maxOrderOf (companiesIn s)
    let company : Company :=
      { id := newId, name := name, code := code, type := type,
        description := description, iconUrl := none,
        order := some (maxOrder + 1), createdAt := t, updatedAt := t }
    some (kvSet s (Key.company newId) (KVal.company company), company)

/-- One step of the reorder loop (company-handlers.tsx 136-146): look the
company up, and when present store it back with the new order.  The
JavaScript loop runs its steps through Promise.all, but the updates touch
pairwise distinct keys, so the sequential fold is the same function. -/
def reorderStep (t : Int) (s : KV) (upd : String × Int) : KV :=
  match kvGet s (Key.company upd.1) with
  | some (KVal.company c) =>
    kvSet s (Key.company upd.1)
      (KVal.company { c with order := some upd.2, updatedAt := t })
  | _ => s

/-- POST /companies/reorder (company-handlers.tsx 126-155). -/
def reorderCompanies (s : KV) (orderUpdates : List (String × Int)) (t : Int) : KV :=
  orderUpdates.foldl (reorderStep t) s

/-- The orderUpdates payload built by handleCompaniesReorder (App.tsx
146-149): each company of the reordered list paired with its zero-based
index. -/
def reorderPayload (reordered : List Company) : List (String × Int) :=
  reordered.enum.map (fun p => (p.2.id, (p.1 : Int)))

/-- GET /companies/:id (company-handlers.tsx 35-49), reduced to its
success flag: true when the company exists, false for the 404 envelope. -/
def getCompanyFound (s : KV) (id : String) : Bool :=
  match kvGet s (Key.company id) with
  | some (KVal.company _) => true
  | _ => false

/-! Blob storage model and the cascade delete handler. -/

/-- Modelled from the spec: the two storage buckets, as the sets of object
paths they hold. -/
structure Blobs where
  icons : List String
  reportFiles : List String
deriving DecidableEq, Repr

/-- storage.remove([path]) on the reports bucket. -/
def blobRemoveReport (b : Blobs) (path : String) : Blobs :=
  { b with reportFiles := b.reportFiles.filter (fun q => decide (q ≠ path)) }

/-- storage.remove([path]) on the icons bucket. -/
def blobRemoveIcon (b : Blobs) (path : String) : Blobs :=
  { b with icons := b.icons.filter (fun q => decide (q ≠ path)) }

/-- iconUrl.split('/').pop() of the delete handler. -/
def lastSegment (url : String) : String :=
  (url.splitOn "/").getLastD ""

/-- Body of the per-report loop of DELETE /companies/:id
(company-handlers.tsx 259-280): remove the report blob when filePath is
truthy, delete every comment the store currently holds for the report,
then delete the report record. -/
def deleteReportCascade (companyId : String) (acc : KV × Blobs) (r : Report) :
    KV × Blobs :=
  let b1 := if r.filePath ≠ "" then blobRemoveReport acc.2 r.filePath else acc.2
  let cmts := commentsIn acc.1 companyId r.id
  let s1 := cmts.foldl (fun st m => kvDel st (Key.comment companyId r.id m.id)) acc.1
  (kvDel s1 (Key.report companyId r.id), b1)

/-- DELETE /companies/:id (company-handlers.tsx 233-290).  Returns the new
store, the new blob state and the success flag (false is the 404 path). -/
def deleteCompany (s : KV) (b : Blobs) (id : String) : KV × Blobs × Bool :=
  match kvGet s (Key.company id) with
  | some (KVal.company c) =>
    let b1 :=
      match c.iconUrl with
      | some u =>
        if u ≠ "" then blobRemoveIcon b ("company-icons/" ++ lastSegment u) else b
      | none => b
    let reports := reportsIn s id
    let sb := reports.foldl (deleteReportCascade id) (s, b1)
    (kvDel sb.1 (Key.company id), sb.2, true)
  | _ => (s, b, false)

/-- GET /companies/:companyId/reports (report list handler), reduced to
the sorted report records; the per-report comments it attaches do not
affect which reports are returned. -/
def listReports (s : KV) (companyId : String) : List Report :=
  sortCmp reportCmp (reportsIn s companyId)

/-! Client API descriptors, utils/api.ts 4-13 and 94-261. -/

/-- Modelled from the spec: the Supabase project id from
utils/supabase/info, a module not among the sources; any fixed opaque
string serves, nothing below depends on its value. -/
def projectId : String := "project"

/-- Modelled from the spec: the anon bearer token from utils/supabase/info. -/
def publicAnonKey : String := "anon-key"

/-- API_BASE_URL (api.ts line 4). -/
def API_BASE_URL : String :=
  "https://" ++ projectId ++ ".supabase.co/functions/v1/make-server-78971119"

/-- createAuthHeaders (api.ts 6-9). -/
def authHeaders : List (String × String) :=
  [("Content-Type", "application/json"), ("Authorization", "Bearer " ++ publicAnonKey)]

/-- createFormHeaders (api.ts 11-13). -/
def formHeaders : List (String × String) :=
  [("Authorization", "Bearer " ++ publicAnonKey)]

/-- Options object of companyApi.getAll (api.ts 97-99). -/
def getAllOpts : RequestInit := { headers := some authHeaders }

/-- companyApi.getAll (api.ts 95-100): a GET of /companies with cache key
companies_getAll; this is its synchronous prefix. -/
def getAllStart (s : ClientState) (now : Int) : StartResult × ClientState :=
  makeRequestStart s (API_BASE_URL ++ "/companies") getAllOpts (some "companies_getAll") now

/-- Completion of a companyApi.getAll call whose fetch settled with out. -/
def getAllComplete (s : ClientState) (out : FetchOutcome) (now : Int) :
    Except JsError (Option Json) × ClientState :=
  makeRequestComplete s (API_BASE_URL ++ "/companies") getAllOpts (some "companies_getAll") out now

/-- Options object of companyApi.create (api.ts 111-115); body is the
JSON.stringify of the form data. -/
def createOpts (body : String) : RequestInit :=
  { method := some "POST", headers := some authHeaders, body := some (.str body) }

/-- companyApi.create synchronous prefix (api.ts 109-116): clear every
cache entry whose key contains 'companies', then issue the POST. -/
def companyCreateStart (s : ClientState) (body : String) (now : Int) :
    StartResult × ClientState :=
  makeRequestStart { s with cache := clearCachePattern s.cache "companies" }
    (API_BASE_URL ++ "/companies") (createOpts body) none now

/-- Completion of a companyApi.create call. -/
def companyCreateComplete (s : ClientState) (body : String) (out : FetchOutcome) (now : Int) :
    Except JsError (Option Json) × ClientState :=
  makeRequestComplete s (API_BASE_URL ++ "/companies") (createOpts body) none out now

/-- The six company mutations of companyApi (create, update, delete,
updateOrder, uploadIcon, removeIcon; api.ts 109-156 plus the removeIcon
method patch).  Each clears the 'companies' cache pattern before its
request; delete additionally clears reports_ID. -/
inductive CompanyMutation where
  | create : CompanyMutation
  | update : CompanyMutation
  | delete : CompanyMutation
  | updateOrder : CompanyMutation
  | uploadIcon : CompanyMutation
  | removeIcon : CompanyMutation
deriving DecidableEq, Repr

/-- The cache clearing each company mutation performs synchronously at its
start; id is the company id of the call (used only by delete). -/
def mutationClear (m : CompanyMutation) (id : String) (c : Cache) : Cache :=
  match m with
  | .delete => clearCachePattern (clearCachePattern c "companies") ("reports_" ++ id)
  | _ => clearCachePattern c "companies"

/-- FormData built by reportApi.upload (api.ts 173-177). -/
def uploadForm (title analyst category : String) (fileName : String) (fileSize : Int) :
    List (String × FormValue) :=
  [("title", .str title), ("analyst", .str analyst), ("category", .str category),
   ("file", .file fileName fileSize)]

/-- Options object of reportApi.upload (api.ts 179-183). -/
def uploadOpts (title analyst category fileName : String) (fileSize : Int) : RequestInit :=
  { method := some "POST", headers := some formHeaders,
    body := some (.form (uploadForm title analyst category fileName fileSize)) }

/-- Upload URL for a company (api.ts line 179). -/
def uploadUrl (companyId : String) : String :=
  API_BASE_URL ++ "/companies/" ++ companyId ++ "/reports"

/-- reportApi.upload synchronous prefix (api.ts 166-184): clear the
reports_COMPANYID cache pattern, then start the multipart POST with no
cache key. -/
def uploadStart (s : ClientState) (companyId title analyst category fileName : String)
    (fileSize : Int) (now : Int) : StartResult × ClientState :=
  makeRequestStart { s with cache := clearCachePattern s.cache ("reports_" ++ companyId) }
    (uploadUrl companyId) (uploadOpts title analyst category fileName fileSize) none now

/-! Download URL flow: server handler plus client accessor (claim C8). -/

/-- Modelled from the spec: createSignedUrl of the storage provider, a
time-limited capability URL for a stored path; injective tagging of the
path and expiry is all the claims need. -/
def signedUrlFor (path : String) (expiresIn : Int) : String :=
  "signed:" ++ path ++ ":" ++ toString expiresIn

/-- GET /reports/:companyId/:reportId/download (the download handler):
404 envelope when the report is unknown, otherwise HTTP 200 with the body
literally written by c.json(\x7b success: true, downloadUrl: data.signedUrl \x7d),
signing the report's stored file for 3600 seconds.  The storage signing
error branch is not modelled; signing is total here. -/
def downloadReply (s : KV) (companyId reportId : String) : Nat × Json :=
  match kvGet s (Key.report companyId reportId) with
  | some (KVal.report r) =>
    (200, Json.obj [("success", .bool true),
                    ("downloadUrl", .str (signedUrlFor r.filePath 3600))])
  | _ =>
    (404, Json.obj [("success", .bool false), ("error", .str "Report not found")])

/-- JavaScript property access on the value makeRequest returned: reading
a property of undefined or null raises a TypeError. -/
def jsMember (v : Option Json) (fld : String) : Except JsError (Option Json) :=
  match v with
  | none => .error (.typeError ("Cannot read properties of undefined (reading '" ++ fld ++ "')"))
  | some .null => .error (.typeError ("Cannot read properties of null (reading '" ++ fld ++ "')"))
  | some j => .ok (jsonGet j fld)

/-- reportApi.getDownloadUrl (api.ts 217-222) composed with the download
handler: makeRequest processes the handler's reply (the response body text
is only read on the non-2xx path and is irrelevant here), then the client
reads result.downloadUrl off the returned value. -/
def getDownloadUrl (s : KV) (companyId reportId : String) :
    Except JsError (Option Json) :=
  let reply := downloadReply s companyId reportId
  match processResponse reply.1 "" reply.2 with
  | .error e => .error e
  | .ok d => jsMember d "downloadUrl"

/-- Serialization of a company record as the handlers' c.json emits it
(undefined fields omitted; timestamps carried as their epoch value). -/
def jsonOfCompany (c : Company) : Json :=
  Json.obj (List.filterMap id
    [some ("id", Json.str c.id),
     some ("name", Json.str c.name),
     some ("code", Json.str c.code),
     some ("type", Json.str c.type),
     some ("description", Json.str c.description),
     c.iconUrl.map (fun u => ("iconUrl", Json.str u)),
     c.order.map (fun o => ("order", Json.num o)),
     some ("createdAt", Json.num c.createdAt),
     some ("updatedAt", Json.num c.updatedAt)])

/-- Serialization of a company list. -/
def jsonOfCompanies (cs : List Company) : Json :=
  Json.arr (cs.map jsonOfCompany)

/-- Success envelope c.json(\x7b success: true, data \x7d). -/
def okEnvelope (d : Json) : Json :=
  Json.obj [("success", Json.bool true), ("data", d)]

/-- A store holding exactly the given companies, each under its
company key; the shape every company write of the handlers produces. -/
def mkStore (cs : List Company) : KV :=
  cs.map (fun c => (Key.company c.id, KVal.company c))

/-- First binding of an id in an orderUpdates payload. -/
def assocFind : List (String × Int) → String → Option Int
  | [], _ => none
  | (k, v) :: rest, key => if k = key then some v else assocFind rest key

/-- Pointwise effect of the reorder handler on one stored company: the
order (and updatedAt) taken from its binding in the payload, when any. -/
def applyUpdates (upds : List (String × Int)) (t : Int) (c : Company) : Company :=
  match assocFind upds c.id with
  | some ord => { c with order := some ord, updatedAt := t }
  | none => c

/-- The reorder payload built from index k on, used to reason about
reorderPayload by induction (reorderPayload rs = payloadFrom 0 rs). -/
def payloadFrom (k : Nat) (rs : List Company) : List (String × Int) :=
  (rs.enumFrom k).map (fun p => (p.2.id, (p.1 : Int)))

/-! Concrete records used by witnesses and counterexamples. -/

/-- A concrete stored report used to evaluate the download flow. -/
def demoReport : Report :=
  { id := "r1", companyId := "co", title := "Q3", analyst := "Ann",
    category := "meeting", fileName := "q3.pdf", fileSize := "1.0MB",
    filePath := "co/r1.pdf", order := some 0, createdAt := 0, updatedAt := 0 }

/-- Concrete company with order 2. -/
def coA : Company :=
  { id := "a", name := "A", code := "A", type := "t", description := "",
    order := some 2, createdAt := 5, updatedAt := 0 }

/-- Concrete company with order 1. -/
def coB : Company :=
  { id := "b", name := "B", code := "B", type := "t", description := "",
    order := some 1, createdAt := 9, updatedAt := 0 }

/-- The company record the create handler builds for id n at time 7 into
a store holding exactly coB (whose order is 1): max order 1 plus one. -/
def coNew : Company :=
  { id := "n", name := "N", code := "N", type := "t", description := "",
    iconUrl := none, order := some 2, createdAt := 7, updatedAt := 7 }

/-- Concrete company whose defined order exceeds the 999999 sentinel. -/
def coBig : Company :=
  { id := "big", name := "Big", code := "B", type := "t", description := "",
    order := some 1000000, createdAt := 0, updatedAt := 0 }

/-- Concrete company with a missing order. -/
def coNoOrder : Company :=
  { id := "noord", name := "NoOrder", code := "N", type := "t", description := "",
    order := none, createdAt := 0, updatedAt := 0 }

/-- Concrete company owning the demo reports. -/
def demoCompany : Company :=
  { id := "co", name := "C", code := "C", type := "t", description := "",
    iconUrl := none, order := some 0, createdAt := 0, updatedAt := 0 }

/-- Second demo report of the same company. -/
def demoReport2 : Report :=
  { id := "r2", companyId := "co", title := "Q4", analyst := "Bob",
    category := "tracking", fileName := "q4.pdf", fileSize := "2.0MB",
    filePath := "co/r2.pdf", order := some 1, createdAt := 1, updatedAt := 1 }

/-- Comment on the first demo report. -/
def demoComment1 : Comment := { id := "m1", content := "first", createdAt := 2 }

/-- Comment on the second demo report. -/
def demoComment2 : Comment := { id := "m2", content := "second", createdAt := 3 }

/-- A store holding the demo company, its two reports and their comments. -/
def demoStore : KV :=
  [(Key.company "co", KVal.company demoCompany),
   (Key.report "co" "r1", KVal.report demoReport),
   (Key.report "co" "r2", KVal.report demoReport2),
   (Key.comment "co" "r1" "m1", KVal.comment demoComment1),
   (Key.comment "co" "r2" "m2", KVal.comment demoComment2)]

/-- Blob storage holding the two demo report files. -/
def demoBlobs : Blobs := { icons := [], reportFiles := ["co/r1.pdf", "co/r2.pdf"] }

/-- The company the create handler builds for the C3 race trace: created
into a store holding demoCompany (order 0) at time 1, so it gets order 1. -/
def newCo : Company :=
  { id := "b-id", name := "B", code := "B", type := "t", description := "",
    iconUrl := none, order := some 1, createdAt := 1, updatedAt := 1 }

/-- The server store after the create of newCo. -/
def serverAfterCreate : KV :=
  kvSet (mkStore [demoCompany]) (Key.company "b-id") (KVal.company newCo)

/-! Theorems.  Small helper lemmas first, then one theorem per claim. -/

theorem cacheFind_cacheStore_self (c : Cache) (k : String) (e : CacheEntry) :
    cacheFind (cacheStore c k e) k = some e := by
  induction c with
  | nil => simp [cacheStore, cacheFind]
  | cons kv rest ih =>
    by_cases h : kv.1 = k
    · simp [cacheStore, cacheFind, h]
    · cases kv with
      | mk k0 e0 =>
        simp only at h
        simp [cacheStore, cacheFind, h, ih]

theorem cacheFind_clearCachePattern (c : Cache) (pat k : String)
    (h : strIncludes k pat = true) :
    cacheFind (clearCachePattern c pat) k = none := by
  induction c with
  | nil => simp [clearCachePattern, cacheFind]
  | cons kv rest ih =>
    simp only [clearCachePattern, List.filter] at ih ⊢
    by_cases hk : strIncludes kv.1 pat
    · simpa [hk] using ih
    · have hne : kv.1 ≠ k := by
        intro he
        rw [he] at hk
        exact hk h
      simp [hk, cacheFind, hne, ih]

theorem cacheFind_filter_none (c : Cache) (p : String × CacheEntry → Bool) (k : String)
    (h : cacheFind c k = none) : cacheFind (c.filter p) k = none := by
  induction c with
  | nil => simp [cacheFind]
  | cons kv rest ih =>
    by_cases hk : kv.1 = k
    · simp [cacheFind, hk] at h
    · simp only [cacheFind, if_neg hk] at h
      by_cases hp : p kv
      · simpa [List.filter, hp, cacheFind, hk] using ih h
      · simpa [List.filter, hp] using ih h

theorem pendFind_pendErase (l : List (String × Nat)) (k : String) :
    pendFind (pendErase l k) k = none := by
  induction l with
  | nil => simp [pendErase, pendFind]
  | cons kv rest ih =>
    by_cases h : kv.1 = k
    · simpa [pendErase, List.filter, h] using ih
    · simpa [pendErase, List.filter, h, pendFind] using ih

/-- Cache misses are monotone in time: an entry that did not serve a
request at time t1 does not serve the identical request at any later t2
(expiry only moves forward; the truthiness of the stored data and the
method test do not depend on time). -/
theorem cacheHit_none_mono (c : Cache) (ck : Option String) (o : RequestInit)
    (t1 t2 : Int) (h12 : t1 ≤ t2) (h : cacheHit c ck o t1 = none) :
    cacheHit c ck o t2 = none := by
  cases ck with
  | none => simp [cacheHit]
  | some k =>
    simp only [cacheHit] at h ⊢
    by_cases hg : k ≠ "" ∧ isGetLike o = true
    · simp only [if_pos hg] at h ⊢
      simp only [getCachedData] at h ⊢
      cases hf : cacheFind c k with
      | none => simp [hf, jsTruthy]
      | some e =>
        simp only [hf] at h ⊢
        by_cases hfresh1 : t1 - e.timestamp < CACHE_DURATION
        · by_cases hfresh2 : t2 - e.timestamp < CACHE_DURATION
          · simpa [hfresh1, hfresh2] using h
          · simp [hfresh2, jsTruthy]
        · have hfresh2 : ¬ (t2 - e.timestamp < CACHE_DURATION) := by omega
          simp [hfresh2, jsTruthy]
    · simp [if_neg hg]

/-- Claim C7: makeRequest's failure semantics.  A non-2xx response throws
an error whose message carries the HTTP status and the response body text;
a 2xx response whose envelope carries success: false throws the
server-supplied error message, or the fixed message 'API request failed'
when the envelope has no error field; a 2xx response with success: true
returns the envelope's data field and never raises. -/
theorem C7_makeRequest_failure_semantics (status : Nat) (bodyText : String) (result : Json) :
    (¬ (200 ≤ status ∧ status ≤ 299) →
      processResponse status bodyText result =
        .error (.thrown ("HTTP " ++ toString status ++ ": " ++ bodyText))) ∧
    ((200 ≤ status ∧ status ≤ 299) →
      (jsonGet result "success" = some (Json.bool false) →
        ((∀ m, m ≠ "" → jsonGet result "error" = some (Json.str m) →
          processResponse status bodyText result = .error (.thrown m)) ∧
         (jsonGet result "error" = none →
          processResponse status bodyText result = .error (.thrown "API request failed")))) ∧
      (jsonGet result "success" = some (Json.bool true) →
        processResponse status bodyText result = .ok (jsonGet result "data"))) := by
  refine ⟨fun h2 => ?_, fun h2 => ⟨fun hfalse => ⟨fun m hm herr => ?_, fun herr => ?_⟩,
    fun htrue => ?_⟩⟩
  · simp [processResponse, h2]
  · simp [processResponse, h2, hfalse, jsTruthyOpt, jsTruthy, jsErrMsg, herr, hm]
  · simp [processResponse, h2, hfalse, jsTruthyOpt, jsTruthy, jsErrMsg, herr]
  · simp [processResponse, h2, htrue, jsTruthyOpt, jsTruthy]

/-- Witness for C7 at concrete inputs: a 500 response, a 200 response with
a success: false envelope carrying an error message, and a 200 response
with a success: true envelope carrying data. -/
theorem C7_makeRequest_failure_semantics_witness :
    processResponse 500 "boom" (Json.obj []) = .error (.thrown "HTTP 500: boom") ∧
    processResponse 200 ""
      (Json.obj [("success", Json.bool false), ("error", Json.str "nope")]) =
      .error (.thrown "nope") ∧
    processResponse 200 ""
      (Json.obj [("success", Json.bool true), ("data", Json.num 7)]) =
      .ok (some (Json.num 7)) := by
  refine ⟨?_, ?_, ?_⟩
  · exact (C7_makeRequest_failure_semantics 500 "boom" (Json.obj [])).1 (by decide)
  · exact (((C7_makeRequest_failure_semantics 200 ""
      (Json.obj [("success", Json.bool false), ("error", Json.str "nope")])).2
      (by decide)).1 (by rfl)).1 "nope" (by decide) (by rfl)
  · exact ((C7_makeRequest_failure_semantics 200 ""
      (Json.obj [("success", Json.bool true), ("data", Json.num 7)])).2
      (by decide)).2 (by rfl)

/-- Claim C2: the cache TTL.  Run a cacheable GET (cacheKey present and
truthy, method absent or GET) that misses cache and dedup at t1 and
completes successfully at t2, caching its data.  An identical call issued
at t3 with t3 - t2 strictly below the five-minute TTL is answered from the
cache with the first call's data and leaves the client state untouched (in
particular no fetch); a call at t3 with the TTL elapsed misses and issues
a fresh network fetch.  The data-truthiness hypothesis reflects that every
cached endpoint of this API returns a JSON array or object, which the
if (cached) test accepts. -/
theorem C2_cache_ttl (s0 s1 s2 : ClientState) (url : String) (o : RequestInit) (ck : String)
    (t1 t2 t3 : Int) (pid : Nat) (status : Nat) (bt : String) (j : Json) (d : Option Json)
    (hget : isGetLike o = true) (hck : ck ≠ "")
    (h1 : makeRequestStart s0 url o (some ck) t1 = (.fetched pid, s1))
    (h2 : makeRequestComplete s1 url o (some ck) (.response status bt j) t2 = (.ok d, s2))
    (htruthy : jsTruthy (d.getD Json.null) = true) :
    (t3 - t2 < CACHE_DURATION →
      (makeRequestStart s2 url o (some ck) t3).1 = .cached (d.getD Json.null) ∧
      (makeRequestStart s2 url o (some ck) t3).2 = s2) ∧
    (CACHE_DURATION ≤ t3 - t2 →
      (makeRequestStart s2 url o (some ck) t3).1 = .fetched s2.nextPid ∧
      (makeRequestStart s2 url o (some ck) t3).2.fetches = s2.fetches + 1) := by
  simp only [makeRequestComplete] at h2
  cases hp : processResponse status bt j with
  | error e => rw [hp] at h2; exact absurd (congrArg Prod.fst h2) (by simp)
  | ok d0 =>
    rw [hp] at h2
    simp only [hck, hget, ne_eq, not_false_eq_true, and_self, if_true] at h2
    rw [Prod.ext_iff] at h2
    obtain ⟨hd0, hs⟩ := h2
    simp only [Except.ok.injEq] at hd0
    subst hd0
    simp only at hs
    have hs2 : s2 = { s1 with
        pending := pendErase s1.pending (requestKey url o),
        cache := setCachedData s1.cache ck (d0.getD Json.null) t2 } := hs.symm
    constructor
    · intro hfresh
      have hhit : cacheHit s2.cache (some ck) o t3 = some (d0.getD Json.null) := by
        rw [hs2]
        simp only [cacheHit, hck, hget, ne_eq, not_false_eq_true, and_self, if_true,
          getCachedData, setCachedData, cacheFind_cacheStore_self]
        simp [hfresh, htruthy]
      simp [makeRequestStart, hhit]
    · intro hstale
      have hmiss : cacheHit s2.cache (some ck) o t3 = none := by
        rw [hs2]
        simp only [cacheHit, hck, hget, ne_eq, not_false_eq_true, and_self, if_true,
          getCachedData, setCachedData, cacheFind_cacheStore_self]
        have hns : ¬ (t3 - t2 < CACHE_DURATION) := by omega
        simp [hns, jsTruthy]
      have hpend : pendFind s2.pending (requestKey url o) = none := by
        rw [hs2]
        exact pendFind_pendErase _ _
      simp [makeRequestStart, hmiss, hpend]

/-- Witness for C2: a concrete GET cached at time 10 is served from cache
at time 20 and refetched at time 300010 (TTL exactly elapsed). -/
theorem C2_cache_ttl_witness :
    (isGetLike { headers := some authHeaders } = true) ∧
    ((20 : Int) - 10 < CACHE_DURATION) ∧
    (CACHE_DURATION ≤ (300010 : Int) - 10) ∧
    ((makeRequestStart
        (makeRequestComplete
          (makeRequestStart emptyClient "u" { headers := some authHeaders } (some "k") 0).2
          "u" { headers := some authHeaders } (some "k")
          (.response 200 "" (okEnvelope (Json.arr []))) 10).2
        "u" { headers := some authHeaders } (some "k") 20).1 = .cached (Json.arr []) ∧
     (makeRequestStart
        (makeRequestComplete
          (makeRequestStart emptyClient "u" { headers := some authHeaders } (some "k") 0).2
          "u" { headers := some authHeaders } (some "k")
          (.response 200 "" (okEnvelope (Json.arr []))) 10).2
        "u" { headers := some authHeaders } (some "k") 300010).2.fetches =
      (makeRequestComplete
          (makeRequestStart emptyClient "u" { headers := some authHeaders } (some "k") 0).2
          "u" { headers := some authHeaders } (some "k")
          (.response 200 "" (okEnvelope (Json.arr []))) 10).2.fetches + 1) := by
  refine ⟨by decide, by decide, by decide, ?_, ?_⟩
  · exact ((C2_cache_ttl emptyClient _ _ "u" { headers := some authHeaders } "k" 0 10 20 0
      200 "" (okEnvelope (Json.arr [])) (some (Json.arr [])) (by decide) (by decide)
      (by rfl) (by rfl) (by rfl)).1 (by decide)).1
  · exact ((C2_cache_ttl emptyClient _ _ "u" { headers := some authHeaders } "k" 0 10 300010 0
      200 "" (okEnvelope (Json.arr [])) (some (Json.arr [])) (by decide) (by decide)
      (by rfl) (by rfl) (by rfl)).2 (by decide)).2

/-- Bookkeeping of the makeRequest continuation: whatever the outcome and
the cache decision, it removes the request key from pendingRequests and
leaves the promise supply and the fetch count unchanged. -/
theorem complete_bookkeeping (s : ClientState) (url : String) (o : RequestInit)
    (ck : Option String) (out : FetchOutcome) (t : Int) :
    (makeRequestComplete s url o ck out t).2.pending = pendErase s.pending (requestKey url o) ∧
    (makeRequestComplete s url o ck out t).2.nextPid = s.nextPid ∧
    (makeRequestComplete s url o ck out t).2.fetches = s.fetches := by
  simp only [makeRequestComplete]
  cases out with
  | netError m => exact ⟨rfl, rfl, rfl⟩
  | response status bodyText j =>
    cases hp : processResponse status bodyText j with
    | error e => simp [hp]
    | ok d =>
      cases ck with
      | none => simp [hp]
      | some k =>
        by_cases h : k ≠ "" ∧ isGetLike o = true
        · simp [hp, h]
        · simp [hp, h]

/-- Claim C1 (amended): in-flight deduplication of makeRequest.  When a
call misses the cache and issues the fetch (result fetched pid), an
identical call made while it is in flight is handed the very same pending
promise pid — so exactly one network fetch happens and, both callers
awaiting one promise, they receive the same resolved value or the same
error — and the client state is untouched by the second call.  When the
shared request settles, with any outcome, its entry is removed from
pendingRequests; a later identical call then starts a fresh network fetch
provided the cache does not serve it (for a successful cacheable GET
inside the TTL the cache answers instead, which is the amendment). -/
theorem C1_dedup_inflight (s0 s1 : ClientState) (url : String) (o : RequestInit)
    (ck : Option String) (t1 t2 : Int) (pid : Nat)
    (h1 : makeRequestStart s0 url o ck t1 = (.fetched pid, s1))
    (h12 : t1 ≤ t2) :
    makeRequestStart s1 url o ck t2 = (.joined pid, s1) ∧
    s1.fetches = s0.fetches + 1 ∧
    (∀ out t3 t4,
      pendFind (makeRequestComplete s1 url o ck out t3).2.pending (requestKey url o) = none ∧
      (cacheHit (makeRequestComplete s1 url o ck out t3).2.cache ck o t4 = none →
        (makeRequestStart (makeRequestComplete s1 url o ck out t3).2 url o ck t4).1 =
          .fetched (makeRequestComplete s1 url o ck out t3).2.nextPid ∧
        (makeRequestStart (makeRequestComplete s1 url o ck out t3).2 url o ck t4).2.fetches =
          (makeRequestComplete s1 url o ck out t3).2.fetches + 1)) := by
  simp only [makeRequestStart] at h1
  cases hc : cacheHit s0.cache ck o t1 with
  | some v => rw [hc] at h1; exact absurd (congrArg Prod.fst h1) (by simp)
  | none =>
    rw [hc] at h1
    cases hp : pendFind s0.pending (requestKey url o) with
    | some p => rw [hp] at h1; exact absurd (congrArg Prod.fst h1) (by simp)
    | none =>
      rw [hp] at h1
      rw [Prod.ext_iff] at h1
      obtain ⟨hpid, hs⟩ := h1
      simp only [StartResult.fetched.injEq] at hpid
      simp only at hs
      refine ⟨?_, ?_, ?_⟩
      · have hc2 : cacheHit s1.cache ck o t2 = none := by
          rw [← hs]
          exact cacheHit_none_mono s0.cache ck o t1 t2 h12 hc
        have hp2 : pendFind s1.pending (requestKey url o) = some pid := by
          rw [← hs, ← hpid]
          simp [pendFind]
        simp [makeRequestStart, hc2, hp2]
      · rw [← hs]
      · intro out t3 t4
        obtain ⟨hpend, hnext, hfet⟩ := complete_bookkeeping s1 url o ck out t3
        refine ⟨by rw [hpend]; exact pendFind_pendErase _ _, fun hmiss => ?_⟩
        have hpend2 : pendFind (makeRequestComplete s1 url o ck out t3).2.pending
            (requestKey url o) = none := by
          rw [hpend]; exact pendFind_pendErase _ _
        constructor
        · simp [makeRequestStart, hmiss, hpend2]
        · simp [makeRequestStart, hmiss, hpend2]

/-- Witness for C1 at a concrete run: a POST (never cached) started at
time 0; a second identical call joins it, and after a failure completion a
third identical call issues a fresh fetch. -/
theorem C1_dedup_inflight_witness :
    makeRequestStart
      (makeRequestStart emptyClient "u" (createOpts "b") none 0).2
      "u" (createOpts "b") none 1 =
      (.joined 0, (makeRequestStart emptyClient "u" (createOpts "b") none 0).2) ∧
    pendFind
      (makeRequestComplete (makeRequestStart emptyClient "u" (createOpts "b") none 0).2
        "u" (createOpts "b") none (.netError "offline") 2).2.pending
      (requestKey "u" (createOpts "b")) = none := by
  have h := C1_dedup_inflight emptyClient
    (makeRequestStart emptyClient "u" (createOpts "b") none 0).2
    "u" (createOpts "b") none 0 1 0 (by rfl) (by decide)
  exact ⟨h.1, (h.2.2 (.netError "offline") 2 3).1⟩

/-- Counterexample to claim C1 as stated: after a successful cacheable GET
completes, the in-flight entry is indeed gone from pendingRequests, yet a
later identical call does not trigger a fresh network request — it is
answered from the cache and the fetch count stays at one. -/
theorem C1_counterexample :
    pendFind
      (makeRequestComplete (makeRequestStart emptyClient "u" getAllOpts (some "k") 0).2
        "u" getAllOpts (some "k")
        (.response 200 "" (okEnvelope (Json.arr [Json.num 1]))) 10).2.pending
      (requestKey "u" getAllOpts) = none ∧
    (makeRequestStart
      (makeRequestComplete (makeRequestStart emptyClient "u" getAllOpts (some "k") 0).2
        "u" getAllOpts (some "k")
        (.response 200 "" (okEnvelope (Json.arr [Json.num 1]))) 10).2
      "u" getAllOpts (some "k") 20).1 = .cached (Json.arr [Json.num 1]) ∧
    (makeRequestStart
      (makeRequestComplete (makeRequestStart emptyClient "u" getAllOpts (some "k") 0).2
        "u" getAllOpts (some "k")
        (.response 200 "" (okEnvelope (Json.arr [Json.num 1]))) 10).2
      "u" getAllOpts (some "k") 20).2.fetches = 1 := by
  exact ⟨rfl, rfl, rfl⟩

/-- Claim C10: FormData erasure in the deduplication key.  The key is
url + '_' + JSON.stringify(options) and JSON.stringify serializes any
FormData body to two braces, so any two multipart uploads to the same
company produce the same request key whatever their titles, analysts,
categories or files.  Hence when a second upload is issued while the first
is in flight, the second caller is handed the first call's pending promise
(joined pid): no new fetch is counted and the pending map is unchanged, so
the second upload's own FormData is never sent. -/
theorem C10_upload_formdata_dedup (companyId : String)
    (t1 a1 c1 f1 : String) (z1 : Int) (t2 a2 c2 f2 : String) (z2 : Int)
    (s s1 : ClientState) (now1 now2 : Int) (pid : Nat)
    (h : uploadStart s companyId t1 a1 c1 f1 z1 now1 = (.fetched pid, s1)) :
    requestKey (uploadUrl companyId) (uploadOpts t1 a1 c1 f1 z1) =
      requestKey (uploadUrl companyId) (uploadOpts t2 a2 c2 f2 z2) ∧
    (uploadStart s1 companyId t2 a2 c2 f2 z2 now2).1 = .joined pid ∧
    (uploadStart s1 companyId t2 a2 c2 f2 z2 now2).2.fetches = s1.fetches ∧
    (uploadStart s1 companyId t2 a2 c2 f2 z2 now2).2.pending = s1.pending := by
  have hkey : requestKey (uploadUrl companyId) (uploadOpts t1 a1 c1 f1 z1) =
      requestKey (uploadUrl companyId) (uploadOpts t2 a2 c2 f2 z2) := rfl
  refine ⟨hkey, ?_⟩
  simp only [uploadStart, makeRequestStart, cacheHit] at h
  cases hp : pendFind s.pending (requestKey (uploadUrl companyId) (uploadOpts t1 a1 c1 f1 z1)) with
  | some p =>
    rw [show ({ s with cache := clearCachePattern s.cache ("reports_" ++ companyId) } :
      ClientState).pending = s.pending from rfl] at h
    rw [hp] at h
    exact absurd (congrArg Prod.fst h) (by simp)
  | none =>
    rw [show ({ s with cache := clearCachePattern s.cache ("reports_" ++ companyId) } :
      ClientState).pending = s.pending from rfl] at h
    rw [hp] at h
    rw [Prod.ext_iff] at h
    obtain ⟨hpid, hs⟩ := h
    simp only [StartResult.fetched.injEq] at hpid
    simp only at hs
    have hp2 : pendFind s1.pending
        (requestKey (uploadUrl companyId) (uploadOpts t2 a2 c2 f2 z2)) = some pid := by
      rw [← hs, ← hkey, ← hpid]
      simp [pendFind]
    simp [uploadStart, makeRequestStart, cacheHit, hp2]

/-- Witness for C10: two concrete uploads with different titles, files and
sizes issued back to back; the second joins promise 0 of the first. -/
theorem C10_upload_formdata_dedup_witness :
    requestKey (uploadUrl "co") (uploadOpts "T1" "Ann" "meeting" "a.pdf" 100) =
      requestKey (uploadUrl "co") (uploadOpts "T2" "Bob" "tracking" "b.pdf" 999) ∧
    (uploadStart (uploadStart emptyClient "co" "T1" "Ann" "meeting" "a.pdf" 100 0).2
      "co" "T2" "Bob" "tracking" "b.pdf" 999 1).1 = .joined 0 := by
  have h := C10_upload_formdata_dedup "co" "T1" "Ann" "meeting" "a.pdf" 100
    "T2" "Bob" "tracking" "b.pdf" 999 emptyClient
    (uploadStart emptyClient "co" "T1" "Ann" "meeting" "a.pdf" 100 0).2 0 1 0 (by rfl)
  exact ⟨h.1, h.2.1⟩

/-- Claim C8, evaluated at a failing input: the download handler does put
the one-hour signed URL in its reply, but under the top-level field
downloadUrl instead of inside the data envelope; makeRequest extracts
result.data, which is therefore undefined, and the client's
result.downloadUrl access raises a TypeError instead of returning the
signed URL. -/
theorem C8_download_envelope_mismatch :
    jsonGet (downloadReply [(Key.report "co" "r1", KVal.report demoReport)] "co" "r1").2
      "downloadUrl" = some (Json.str (signedUrlFor "co/r1.pdf" 3600)) ∧
    jsonGet (downloadReply [(Key.report "co" "r1", KVal.report demoReport)] "co" "r1").2
      "data" = none ∧
    getDownloadUrl [(Key.report "co" "r1", KVal.report demoReport)] "co" "r1" =
      .error (.typeError "Cannot read properties of undefined (reading 'downloadUrl')") := by
  exact ⟨rfl, rfl, rfl⟩

section SortLemmas

variable {α : Type} (cmpf : α → α → Int)

theorem mem_insertCmp (x : α) (l : List α) (y : α) :
    y ∈ insertCmp cmpf x l ↔ y = x ∨ y ∈ l := by
  induction l with
  | nil => simp [insertCmp]
  | cons z zs ih =>
    by_cases h : cmpf x z ≤ 0
    · simp [insertCmp, h, List.mem_cons]
    · simp only [insertCmp, if_neg h, List.mem_cons, ih]
      tauto

theorem insertCmp_perm (x : α) (l : List α) : (insertCmp cmpf x l).Perm (x :: l) := by
  induction l with
  | nil => simp [insertCmp]
  | cons z zs ih =>
    by_cases h : cmpf x z ≤ 0
    · simp [insertCmp, h]
    · simp only [insertCmp, if_neg h]
      exact (ih.cons z).trans (List.Perm.swap x z zs)

theorem sortCmp_perm (l : List α) : (sortCmp cmpf l).Perm l := by
  induction l with
  | nil => exact List.Perm.refl []
  | cons x xs ih => exact (insertCmp_perm cmpf x (sortCmp cmpf xs)).trans (ih.cons x)

theorem insertCmp_pairwise
    (htot : ∀ a b, cmpf a b ≤ 0 ∨ cmpf b a ≤ 0)
    (htr : ∀ a b c, cmpf a b ≤ 0 → cmpf b c ≤ 0 → cmpf a c ≤ 0)
    (x : α) (l : List α) (h : l.Pairwise (fun a b => cmpf a b ≤ 0)) :
    (insertCmp cmpf x l).Pairwise (fun a b => cmpf a b ≤ 0) := by
  induction l with
  | nil => simp [insertCmp]
  | cons z zs ih =>
    rw [List.pairwise_cons] at h
    obtain ⟨hz, hzs⟩ := h
    by_cases hxz : cmpf x z ≤ 0
    · simp only [insertCmp, if_pos hxz]
      rw [List.pairwise_cons]
      refine ⟨?_, by rw [List.pairwise_cons]; exact ⟨hz, hzs⟩⟩
      intro b hb
      rcases List.mem_cons.mp hb with hbz | hbzs
      · rw [hbz]; exact hxz
      · exact htr x z b hxz (hz b hbzs)
    · simp only [insertCmp, if_neg hxz]
      rw [List.pairwise_cons]
      refine ⟨?_, ih hzs⟩
      intro b hb
      rcases (mem_insertCmp cmpf x zs b).mp hb with hbx | hbzs
      · rw [hbx]
        rcases htot x z with h1 | h1
        · exact absurd h1 hxz
        · exact h1
      · exact hz b hbzs

theorem sortCmp_pairwise
    (htot : ∀ a b, cmpf a b ≤ 0 ∨ cmpf b a ≤ 0)
    (htr : ∀ a b c, cmpf a b ≤ 0 → cmpf b c ≤ 0 → cmpf a c ≤ 0)
    (l : List α) :
    (sortCmp cmpf l).Pairwise (fun a b => cmpf a b ≤ 0) := by
  induction l with
  | nil => simp [sortCmp]
  | cons x xs ih => exact insertCmp_pairwise cmpf htot htr x (sortCmp cmpf xs) ih

end SortLemmas

theorem cmpOrderCreated_le_iff (oa ob : Option Int) (ta tb : Int) :
    cmpOrderCreated oa ob ta tb ≤ 0 ↔
      (effOrder oa < effOrder ob ∨ (effOrder oa = effOrder ob ∧ tb ≤ ta)) := by
  rw [cmpOrderCreated]
  split
  · omega
  · omega

theorem companyCmp_total (a b : Company) : companyCmp a b ≤ 0 ∨ companyCmp b a ≤ 0 := by
  rw [companyCmp, companyCmp, cmpOrderCreated_le_iff, cmpOrderCreated_le_iff]
  omega

theorem companyCmp_trans (a b c : Company) (h1 : companyCmp a b ≤ 0) (h2 : companyCmp b c ≤ 0) :
    companyCmp a c ≤ 0 := by
  rw [companyCmp, cmpOrderCreated_le_iff] at h1 h2 ⊢
  omega

/-- Claim C4 (amended): the display-order sort.  The sorted list is a
permutation of the input, pairwise ascending in the effective order
order ?? 999999 with ties broken by createdAt descending — which places a
missing order exactly at the sentinel 999999, hence after every defined
order below the sentinel and among its peers by createdAt descending, but
not after a defined order of 999999 or more, which is the amendment — and
when every order is defined and the order values are pairwise distinct the
result is strictly ascending in order. -/
theorem C4_display_sort (cs : List Company) :
    (sortedCompanies cs).Perm cs ∧
    (sortedCompanies cs).Pairwise (fun a b =>
      effOrder a.order < effOrder b.order ∨
      (effOrder a.order = effOrder b.order ∧ b.createdAt ≤ a.createdAt)) ∧
    ((∀ c ∈ cs, c.order ≠ none) → (cs.map (fun c => effOrder c.order)).Nodup →
      (sortedCompanies cs).Pairwise (fun a b => effOrder a.order < effOrder b.order)) := by
  have hperm : (sortedCompanies cs).Perm cs := sortCmp_perm companyCmp cs
  have hpair := sortCmp_pairwise companyCmp companyCmp_total companyCmp_trans cs
  have hpair2 : (sortedCompanies cs).Pairwise (fun a b =>
      effOrder a.order < effOrder b.order ∨
      (effOrder a.order = effOrder b.order ∧ b.createdAt ≤ a.createdAt)) := by
    refine hpair.imp ?_
    intro a b hab
    rw [companyCmp, cmpOrderCreated_le_iff] at hab
    exact hab
  refine ⟨hperm, hpair2, fun _ hnodup => ?_⟩
  have hnodup2 : ((sortedCompanies cs).map (fun c => effOrder c.order)).Nodup :=
    ((hperm.map (fun c => effOrder c.order)).symm).nodup hnodup
  have hne : (sortedCompanies cs).Pairwise
      (fun a b => effOrder a.order ≠ effOrder b.order) := by
    have := List.pairwise_map.mp hnodup2
    exact this
  refine (hpair2.and hne).imp ?_
  intro a b hab
  rcases hab.1 with h | h
  · exact h
  · exact absurd h.1 hab.2

/-- Witness for C4 at a concrete list with defined distinct orders. -/
theorem C4_display_sort_witness :
    (∀ c ∈ [coA, coB], c.order ≠ none) ∧
    (([coA, coB].map (fun c => effOrder c.order)).Nodup) ∧
    (sortedCompanies [coA, coB]).Pairwise
      (fun a b => effOrder a.order < effOrder b.order) := by
  refine ⟨by decide, by decide, ?_⟩
  exact (C4_display_sort [coA, coB]).2.2 (by decide) (by decide)

/-- Counterexample to claim C4 as stated: an item with the defined order
1000000 is sorted after the missing-order item (whose sentinel is 999999),
so a missing order is not placed after every defined order. -/
theorem C4_counterexample :
    sortedCompanies [coBig, coNoOrder] = [coNoOrder, coBig] ∧
    coNoOrder.order = none ∧ coBig.order = some 1000000 := by
  exact ⟨rfl, rfl, rfl⟩

/-! Lemmas for moveItem (claim C5). -/

theorem spliceInsert_perm {α : Type} (l : List α) (i : Nat) (x : α) :
    (spliceInsert l i x).Perm (x :: l) := by
  have h1 : (l.take i ++ x :: l.drop i).Perm (x :: (l.take i ++ l.drop i)) := List.perm_middle
  rw [List.take_append_drop] at h1
  exact h1

theorem spliceRemove_perm {α : Type} (l : List α) (i : Nat) (x : α) (h : l[i]? = some x) :
    l.Perm (x :: spliceRemove l i) := by
  have hi : i < l.length := by
    by_contra hc
    rw [List.getElem?_eq_none (by omega)] at h
    exact Option.noConfusion h
  have hx : l[i] = x := by
    rw [List.getElem?_eq_getElem hi] at h
    exact Option.some.inj h
  have h2 : (l.take i ++ l[i] :: l.drop (i + 1)).Perm (l[i] :: (l.take i ++ l.drop (i + 1))) :=
    List.perm_middle
  have h3 : l = l.take i ++ l[i] :: l.drop (i + 1) := by
    conv_lhs => rw [← List.take_append_drop i l]
    rw [List.drop_eq_getElem_cons hi]
  show l.Perm (x :: (l.take i ++ l.drop (i + 1)))
  rw [← hx]
  conv_lhs => rw [h3]
  exact h2

theorem spliceRemove_length {α : Type} (l : List α) (i : Nat) (hi : i < l.length) :
    (spliceRemove l i).length = l.length - 1 := by
  simp only [spliceRemove, List.length_append, List.length_take, List.length_drop]
  omega

/-- Claim C5: moveItem.  For a valid source index i, when the target index
j is in range the result is a permutation of the input (no duplication or
loss), has the same length, and carries the moved element at index j;
when j is out of range (negative or at least the length) the call returns
the list unchanged. -/
theorem C5_moveItem (α : Type) (l : List α) (i : Nat) (j : Int) (hi : i < l.length) :
    ((0 ≤ j ∧ j < (l.length : Int)) →
      (moveItem l i j).Perm l ∧
      (moveItem l i j).length = l.length ∧
      (moveItem l i j)[j.toNat]? = l[i]?) ∧
    ((j < 0 ∨ (l.length : Int) ≤ j) → moveItem l i j = l) := by
  constructor
  · rintro ⟨hj0, hjl⟩
    have hguard : ¬ (j < 0 ∨ (l.length : Int) ≤ j) := by omega
    have hget : l[i]? = some l[i] := List.getElem?_eq_getElem hi
    have hmove : moveItem l i j = spliceInsert (spliceRemove l i) j.toNat l[i] := by
      rw [moveItem, if_neg hguard, hget]
    have hperm : (moveItem l i j).Perm l := by
      rw [hmove]
      exact (spliceInsert_perm _ _ _).trans (spliceRemove_perm l i l[i] hget).symm
    refine ⟨hperm, hperm.length_eq, ?_⟩
    rw [hmove, hget]
    have hlen : ((spliceRemove l i).take j.toNat).length = j.toNat := by
      rw [List.length_take, spliceRemove_length l i hi]
      omega
    rw [spliceInsert, List.getElem?_append_right (by omega), hlen]
    simp
  · intro hguard
    rw [moveItem, if_pos hguard]

/-- Witness for C5: moving index 0 of a four-element list to index 2, and
a no-op call with target index 9. -/
theorem C5_moveItem_witness :
    ((0 : Nat) < ([10, 20, 30, 40] : List Nat).length) ∧
    ((moveItem [10, 20, 30, 40] 0 (2 : Int)).Perm [10, 20, 30, 40] ∧
     (moveItem [10, 20, 30, 40] 0 (2 : Int))[(2 : Int).toNat]? = ([10, 20, 30, 40] : List Nat)[0]?) ∧
    moveItem [10, 20, 30, 40] 1 (9 : Int) = [10, 20, 30, 40] := by
  have h1 := C5_moveItem Nat [10, 20, 30, 40] 0 2 (by decide)
  have h2 := C5_moveItem Nat [10, 20, 30, 40] 1 9 (by decide)
  exact ⟨by decide, ⟨(h1.1 (by decide)).1, (h1.1 (by decide)).2.2⟩, h2.2 (by decide)⟩

/-! Lemmas for claim C6: auto-assigned order on create, and the reorder
round trip. -/

theorem foldl_max_init_le (cs : List Company) :
    ∀ a : Int, a ≤ cs.foldl (fun mx c => max mx (c.order.getD 0)) a := by
  induction cs with
  | nil => intro a; simp
  | cons c rest ih =>
    intro a
    calc a ≤ max a (c.order.getD 0) := le_max_left _ _
      _ ≤ rest.foldl (fun mx c => max mx (c.order.getD 0)) (max a (c.order.getD 0)) := ih _

theorem foldl_max_mem_le (cs : List Company) :
    ∀ (a : Int) (c : Company), c ∈ cs →
      c.order.getD 0 ≤ cs.foldl (fun mx c => max mx (c.order.getD 0)) a := by
  induction cs with
  | nil => intro a c hc; exact absurd hc (List.not_mem_nil c)
  | cons d rest ih =>
    intro a c hc
    simp only [List.foldl_cons]
    rcases List.mem_cons.mp hc with h | h
    · subst h
      calc c.order.getD 0 ≤ max a (c.order.getD 0) := le_max_right _ _
        _ ≤ rest.foldl (fun mx c => max mx (c.order.getD 0)) (max a (c.order.getD 0)) :=
          foldl_max_init_le rest _
    · exact ih _ c h

theorem foldl_max_attained (cs : List Company) :
    ∀ a : Int, cs.foldl (fun mx c => max mx (c.order.getD 0)) a = a ∨
      ∃ c ∈ cs, cs.foldl (fun mx c => max mx (c.order.getD 0)) a = c.order.getD 0 := by
  induction cs with
  | nil => intro a; exact Or.inl rfl
  | cons d rest ih =>
    intro a
    rcases ih (max a (d.order.getD 0)) with h | h
    · simp only [List.foldl_cons]
      rcases max_cases a (d.order.getD 0) with ⟨hm, _⟩ | ⟨hm, _⟩
      · exact Or.inl (by rw [h, hm])
      · exact Or.inr ⟨d, List.mem_cons_self d rest, by rw [h, hm]⟩
    · obtain ⟨c, hc, heq⟩ := h
      exact Or.inr ⟨c, List.mem_cons_of_mem d hc, heq⟩

/-- The store of a company list lists exactly those companies. -/
theorem companiesIn_mkStore (cs : List Company) : companiesIn (mkStore cs) = cs := by
  induction cs with
  | nil => rfl
  | cons c rest ih =>
    simp only [mkStore, List.map_cons, companiesIn, List.filterMap_cons]
    simpa [companiesIn, mkStore] using ih

theorem reorderStep_cons_skip (t : Int) (k0 : Key) (v0 : KVal) (rest : KV)
    (u : String × Int) (hne : k0 ≠ Key.company u.1) :
    reorderStep t ((k0, v0) :: rest) u = (k0, v0) :: reorderStep t rest u := by
  simp only [reorderStep, kvGet, if_neg hne]
  cases hv : kvGet rest (Key.company u.1) with
  | none => rfl
  | some v =>
    cases v with
    | company c => simp [kvSet, hne]
    | report r => rfl
    | comment m => rfl

theorem reorderStep_mkStore (t : Int) (id : String) (ord : Int) (cs : List Company)
    (hnodup : (cs.map Company.id).Nodup) :
    reorderStep t (mkStore cs) (id, ord) =
      mkStore (cs.map (fun c =>
        if c.id = id then { c with order := some ord, updatedAt := t } else c)) := by
  induction cs with
  | nil => rfl
  | cons c rest ih =>
    simp only [List.map_cons, List.nodup_cons] at hnodup
    obtain ⟨hcid, hrest⟩ := hnodup
    by_cases h : c.id = id
    · subst h
      have hskip : ∀ c' ∈ rest, (if c'.id = c.id then
          ({ c' with order := some ord, updatedAt := t } : Company) else c') = c' := by
        intro c' hc'
        have : c'.id ≠ c.id := by
          intro he
          exact hcid (he ▸ List.mem_map_of_mem Company.id hc')
        simp [this]
      simp only [mkStore, List.map_cons, reorderStep, kvGet, if_pos rfl, kvSet, if_pos rfl]
      rw [List.map_congr_left hskip]
      simp
    · have hne : Key.company c.id ≠ Key.company id := by
        intro he
        exact h (Key.company.injEq .. ▸ Key.company.inj he)
      rw [show mkStore (c :: rest) = (Key.company c.id, KVal.company c) :: mkStore rest from rfl]
      rw [reorderStep_cons_skip t _ _ _ (id, ord) hne]
      rw [ih hrest]
      simp [mkStore, h]

theorem assocFind_mem (us : List (String × Int)) (id : String) (v : Int)
    (h : assocFind us id = some v) : id ∈ us.map Prod.fst := by
  induction us with
  | nil => simp [assocFind] at h
  | cons w ws ih =>
    simp only [assocFind] at h
    by_cases hw : w.1 = id
    · exact List.mem_map.mpr ⟨w, List.mem_cons_self w ws, hw⟩
    · exact List.mem_cons_of_mem _ (ih (by simpa [hw] using h))

theorem reorderCompanies_mkStore (t : Int) :
    ∀ (upds : List (String × Int)) (cs : List Company),
      (cs.map Company.id).Nodup → (upds.map Prod.fst).Nodup →
      reorderCompanies (mkStore cs) upds t = mkStore (cs.map (applyUpdates upds t)) := by
  intro upds
  induction upds with
  | nil =>
    intro cs _ _
    have h2 : List.map (applyUpdates [] t) cs = List.map id cs :=
      List.map_congr_left (fun c _ => rfl)
    simp only [reorderCompanies, List.foldl_nil]
    rw [h2, List.map_id]
  | cons u us ih =>
    intro cs hcs hu
    simp only [List.map_cons, List.nodup_cons] at hu
    obtain ⟨hu1, hus⟩ := hu
    have hstep : reorderCompanies (mkStore cs) (u :: us) t =
        reorderCompanies (reorderStep t (mkStore cs) u) us t := rfl
    rw [hstep]
    cases u with
    | mk id ord =>
      rw [reorderStep_mkStore t id ord cs hcs]
      have hids : ((cs.map (fun c =>
          if c.id = id then { c with order := some ord, updatedAt := t } else c)).map
          Company.id).Nodup := by
        rw [List.map_map]
        have hfe : (Company.id ∘ fun c =>
            if c.id = id then { c with order := some ord, updatedAt := t } else c) =
            Company.id := by
          funext c
          by_cases h : c.id = id <;> simp [Function.comp, h]
        rw [hfe]
        exact hcs
      rw [ih _ hids hus]
      congr 1
      rw [List.map_map]
      apply List.map_congr_left
      intro c _
      by_cases h : c.id = id
      · have hnone : assocFind us id = none := by
          cases hf : assocFind us id with
          | none => rfl
          | some v => exact absurd (assocFind_mem us id v hf) hu1
        simp [Function.comp, applyUpdates, assocFind, h, hnone]
      · have h' : ¬ id = c.id := fun he => h he.symm
        simp [Function.comp, applyUpdates, assocFind, h, h']

theorem payloadFrom_fst : ∀ (rs : List Company) (k : Nat),
    (payloadFrom k rs).map Prod.fst = rs.map Company.id := by
  intro rs
  induction rs with
  | nil => intro k; rfl
  | cons c rest ih =>
    intro k
    simp only [payloadFrom, List.enumFrom, List.map_cons] at ih ⊢
    rw [← ih (k + 1)]

theorem map_applyUpdates_payloadFrom (t : Int) :
    ∀ (rs : List Company) (k : Nat), (rs.map Company.id).Nodup →
      rs.map (applyUpdates (payloadFrom k rs) t) =
        (rs.enumFrom k).map
          (fun p => { p.2 with order := some (p.1 : Int), updatedAt := t }) := by
  intro rs
  induction rs with
  | nil => intro k _; rfl
  | cons c rest ih =>
    intro k hnodup
    simp only [List.map_cons, List.nodup_cons] at hnodup
    obtain ⟨hc, hrest⟩ := hnodup
    have hpf : payloadFrom k (c :: rest) = (c.id, (k : Int)) :: payloadFrom (k + 1) rest := rfl
    have henum : (c :: rest).enumFrom k = (k, c) :: rest.enumFrom (k + 1) := rfl
    rw [hpf, henum, List.map_cons, List.map_cons]
    congr 1
    · simp [applyUpdates, assocFind]
    · have hskip : ∀ c' ∈ rest,
          applyUpdates ((c.id, (k : Int)) :: payloadFrom (k + 1) rest) t c' =
          applyUpdates (payloadFrom (k + 1) rest) t c' := by
        intro c' hc'
        have hne : ¬ c.id = c'.id := by
          intro he
          exact hc (he ▸ List.mem_map_of_mem Company.id hc')
        simp [applyUpdates, assocFind, hne]
      rw [List.map_congr_left hskip, ih (k + 1) hrest]

theorem enumFrom_fst_le : ∀ (rs : List Company) (k : Nat) (p : Nat × Company),
    p ∈ rs.enumFrom k → k ≤ p.1 := by
  intro rs
  induction rs with
  | nil => intro k p hp; exact absurd hp (List.not_mem_nil p)
  | cons c rest ih =>
    intro k p hp
    rcases List.mem_cons.mp hp with h | h
    · rw [h]
    · exact Nat.le_of_succ_le (ih (k + 1) p h)

theorem enumFrom_upd_pairwise (t : Int) :
    ∀ (rs : List Company) (k : Nat),
      ((rs.enumFrom k).map
        (fun p => { p.2 with order := some (p.1 : Int), updatedAt := t })).Pairwise
        (fun a b => effOrder a.order < effOrder b.order) := by
  intro rs
  induction rs with
  | nil => intro k; simp
  | cons c rest ih =>
    intro k
    rw [show (c :: rest).enumFrom k = (k, c) :: rest.enumFrom (k + 1) from rfl, List.map_cons,
      List.pairwise_cons]
    refine ⟨?_, ih (k + 1)⟩
    intro b hb
    obtain ⟨p, hp, hpb⟩ := List.mem_map.mp hb
    rw [← hpb]
    have hle := enumFrom_fst_le rest (k + 1) p hp
    simp only [effOrder, Option.getD]
    omega

/-- Claim C6: reorder round trip.  First, creating a company assigns it an
order strictly above every existing defined order: 0 into an empty store
and otherwise exactly one more than some existing company's order, which
under the nonnegative-defined-orders hypothesis is the current maximum
(the max fold counts a missing order as 0 and starts at -1, so the
hypothesis mirrors the stores the app actually builds).  Second, reorder
composed with the list read: pushing a permutation rs of the stored
companies through handleCompaniesReorder's batched payload
(id, zero-based index) and the reorder handler makes the subsequent list
call return exactly rs, each company carrying its index as order. -/
theorem C6_create_reorder_roundtrip :
    (∀ (s : KV) (name code type descr newId : String) (t : Int) (st : KV) (co : Company),
      (∀ c ∈ companiesIn s, ∃ o, c.order = some o ∧ 0 ≤ o) →
      createCompany s name code type descr newId t = some (st, co) →
      ∃ newOrd, co.order = some newOrd ∧
        (∀ c ∈ companiesIn s, ∀ o, c.order = some o → o < newOrd) ∧
        (companiesIn s = [] → newOrd = 0) ∧
        (companiesIn s ≠ [] → ∃ c ∈ companiesIn s, c.order = some (newOrd - 1))) ∧
    (∀ (cs rs : List Company) (t : Int),
      rs.Perm cs → (cs.map Company.id).Nodup →
      listCompanies (reorderCompanies (mkStore cs) (reorderPayload rs) t) =
        rs.enum.map (fun p => { p.2 with order := some (p.1 : Int), updatedAt := t })) := by
  constructor
  · intro s name code type descr newId t st co horders hcreate
    rw [createCompany] at hcreate
    by_cases hval : name = "" ∨ code = "" ∨ type = ""
    · rw [if_pos hval] at hcreate
      exact Option.noConfusion hcreate
    · rw [if_neg hval] at hcreate
      have hco : co =
          { id := newId, name := name, code := code, type := type,
            description := descr, iconUrl := none,
            order := some (maxOrderOf (companiesIn s) + 1), createdAt := t,
            updatedAt := t } := by
        have hpair := Option.some.inj hcreate
        exact (congrArg Prod.snd hpair).symm
      refine ⟨maxOrderOf (companiesIn s) + 1, by rw [hco], ?_, ?_, ?_⟩
      · intro c hc o ho
        have hle := foldl_max_mem_le (companiesIn s) (-1) c hc
        rw [ho, Option.getD_some] at hle
        simp only [maxOrderOf]
        omega
      · intro hempty
        simp only [maxOrderOf, hempty, List.foldl_nil]
        omega
      · intro hne
        rcases foldl_max_attained (companiesIn s) (-1) with h | h
        · obtain ⟨c, hc⟩ := List.exists_mem_of_ne_nil (companiesIn s) hne
          obtain ⟨o, ho, hge⟩ := horders c hc
          have hle := foldl_max_mem_le (companiesIn s) (-1) c hc
          rw [ho, Option.getD_some] at hle
          rw [h] at hle
          omega
        · obtain ⟨c, hc, heq⟩ := h
          obtain ⟨o, ho, _⟩ := horders c hc
          refine ⟨c, hc, ?_⟩
          rw [ho] at heq ⊢
          rw [Option.getD_some] at heq
          simp only [maxOrderOf]
          rw [← heq]
          simp
  · intro cs rs t hperm hnodup
    have hrs_ids : (rs.map Company.id).Nodup := ((hperm.map Company.id).symm).nodup hnodup
    have hpayload : reorderPayload rs = payloadFrom 0 rs := rfl
    have hpf_nodup : ((reorderPayload rs).map Prod.fst).Nodup := by
      rw [hpayload, payloadFrom_fst]
      exact hrs_ids
    have hstore := reorderCompanies_mkStore t (reorderPayload rs) cs hnodup hpf_nodup
    rw [listCompanies, hstore, companiesIn_mkStore]
    set f := applyUpdates (reorderPayload rs) t with hf
    set tlist := rs.enum.map
      (fun p => { p.2 with order := some (p.1 : Int), updatedAt := t }) with htl
    have hmapeq : rs.map f = tlist := by
      rw [hf, hpayload, htl]
      exact map_applyUpdates_payloadFrom t rs 0 hrs_ids
    have hperm2 : (sortCmp companyCmp (cs.map f)).Perm tlist := by
      refine (sortCmp_perm companyCmp (cs.map f)).trans ?_
      rw [← hmapeq]
      exact (hperm.map f).symm
    have htl_pair : tlist.Pairwise (fun a b => effOrder a.order < effOrder b.order) := by
      rw [htl]
      exact enumFrom_upd_pairwise t rs 0
    have htl_nodup : (tlist.map (fun c => effOrder c.order)).Nodup := by
      have h1 : (tlist.map (fun c => effOrder c.order)).Pairwise (fun a b => a ≠ b) :=
        List.pairwise_map.mpr (htl_pair.imp (fun h => Int.ne_of_lt h))
      exact h1
    have hsorted_nodup : ((sortCmp companyCmp (cs.map f)).map
        (fun c => effOrder c.order)).Nodup :=
      ((hperm2.map (fun c => effOrder c.order)).symm).nodup htl_nodup
    have hsorted_ne : (sortCmp companyCmp (cs.map f)).Pairwise
        (fun a b => effOrder a.order ≠ effOrder b.order) :=
      List.pairwise_map.mp hsorted_nodup
    have hsorted_le := sortCmp_pairwise companyCmp companyCmp_total companyCmp_trans (cs.map f)
    have hsorted_lt : (sortCmp companyCmp (cs.map f)).Pairwise
        (fun a b => effOrder a.order < effOrder b.order) := by
      refine (hsorted_le.and hsorted_ne).imp ?_
      intro a b hab
      obtain ⟨h1, h2⟩ := hab
      rw [companyCmp, cmpOrderCreated_le_iff] at h1
      rcases h1 with h | h
      · exact h
      · exact absurd h.1 h2
    haveI : IsAntisymm Company (fun a b => effOrder a.order < effOrder b.order) :=
      ⟨fun a b h1 h2 => absurd h1 (by omega)⟩
    exact List.eq_of_perm_of_sorted hperm2 hsorted_lt htl_pair

/-- Witness for C6: creating into a store holding coB (order 1) assigns
order 2, and reordering the two stored companies to [coB, coA] makes the
list call return them in exactly that sequence with orders 0 and 1. -/
theorem C6_create_reorder_roundtrip_witness :
    (∃ newOrd, coNew.order = some newOrd ∧
      (∀ c ∈ companiesIn (mkStore [coB]), ∀ o, c.order = some o → o < newOrd) ∧
      (companiesIn (mkStore [coB]) = [] → newOrd = 0) ∧
      (companiesIn (mkStore [coB]) ≠ [] →
        ∃ c ∈ companiesIn (mkStore [coB]), c.order = some (newOrd - 1))) ∧
    listCompanies (reorderCompanies (mkStore [coA, coB]) (reorderPayload [coB, coA]) 42) =
      [{ coB with order := some 0, updatedAt := 42 },
       { coA with order := some 1, updatedAt := 42 }] := by
  constructor
  · refine C6_create_reorder_roundtrip.1 (mkStore [coB]) "N" "N" "t" "" "n" 7
      (kvSet (mkStore [coB]) (Key.company "n") (KVal.company coNew)) coNew ?_ (by rfl)
    intro c hc
    rw [show companiesIn (mkStore [coB]) = [coB] from rfl] at hc
    rw [List.mem_singleton.mp hc]
    exact ⟨1, rfl, by decide⟩
  · have h := C6_create_reorder_roundtrip.2 [coA, coB] [coB, coA] 42
      (List.Perm.swap coA coB []) (by decide)
    rw [h]
    rfl

/-! Lemmas for claim C9: the cascade delete of a company. -/

theorem kvGet_none_iff (s : KV) (k : Key) : kvGet s k = none ↔ ∀ e ∈ s, e.1 ≠ k := by
  induction s with
  | nil => simp [kvGet]
  | cons e0 rest ih =>
    by_cases h : e0.1 = k
    · constructor
      · intro hg
        cases e0 with
        | mk k0 v0 => simp only at h; simp [kvGet, h] at hg
      · intro hall
        exact absurd h (hall e0 (List.mem_cons_self e0 rest))
    · cases e0 with
      | mk k0 v0 =>
        simp only at h
        simp only [kvGet, if_neg h, ih, List.mem_cons]
        constructor
        · intro hall e he
          rcases he with he | he
          · rw [he]; exact h
          · exact hall e he
        · intro hall e he
          exact hall e (Or.inr he)

theorem kvGet_mem (s : KV) (k : Key) (v : KVal) (h : kvGet s k = some v) : (k, v) ∈ s := by
  induction s with
  | nil => simp [kvGet] at h
  | cons e0 rest ih =>
    cases e0 with
    | mk k0 v0 =>
      by_cases hk : k0 = k
      · simp only [kvGet, if_pos hk] at h
        have hv := Option.some.inj h
        rw [← hk, ← hv]
        exact List.mem_cons_self _ _
      · simp only [kvGet, if_neg hk] at h
        exact List.mem_cons_of_mem _ (ih h)

theorem mem_kvDel (s : KV) (k : Key) (e : Key × KVal) (h : e ∈ kvDel s k) :
    e ∈ s ∧ e.1 ≠ k := by
  rw [kvDel, List.mem_filter] at h
  exact ⟨h.1, of_decide_eq_true h.2⟩

theorem kvGet_kvDel_self (s : KV) (k : Key) : kvGet (kvDel s k) k = none :=
  (kvGet_none_iff _ _).mpr (fun e he => (mem_kvDel s k e he).2)

theorem commentFold_mem (cid rid : String) :
    ∀ (cmts : List Comment) (st : KV) (e : Key × KVal),
      e ∈ cmts.foldl (fun st m => kvDel st (Key.comment cid rid m.id)) st → e ∈ st := by
  intro cmts
  induction cmts with
  | nil => intro st e he; exact he
  | cons m0 rest ih =>
    intro st e he
    exact (mem_kvDel _ _ _ (ih _ e he)).1

theorem commentFold_removes (cid rid : String) :
    ∀ (cmts : List Comment) (st : KV) (m : Comment), m ∈ cmts →
      ∀ e ∈ cmts.foldl (fun st m => kvDel st (Key.comment cid rid m.id)) st,
        e.1 ≠ Key.comment cid rid m.id := by
  intro cmts
  induction cmts with
  | nil => intro st m hm; exact absurd hm (List.not_mem_nil m)
  | cons m0 rest ih =>
    intro st m hm e he
    rcases List.mem_cons.mp hm with h | h
    · rw [h]
      exact (mem_kvDel _ _ _ (commentFold_mem cid rid rest _ e he)).2
    · exact ih _ m h e he

theorem cascade_mem (cid : String) (acc : KV × Blobs) (r : Report) (e : Key × KVal)
    (h : e ∈ (deleteReportCascade cid acc r).1) : e ∈ acc.1 := by
  simp only [deleteReportCascade] at h
  exact commentFold_mem cid r.id _ _ e (mem_kvDel _ _ _ h).1

theorem cascade_report_removed (cid : String) (acc : KV × Blobs) (r : Report)
    (e : Key × KVal) (h : e ∈ (deleteReportCascade cid acc r).1) :
    e.1 ≠ Key.report cid r.id := by
  simp only [deleteReportCascade] at h
  exact (mem_kvDel _ _ _ h).2

theorem cascade_comment_removed (cid : String) (acc : KV × Blobs) (r : Report)
    (hwf : KVWF acc.1) (mid : String) (e : Key × KVal)
    (h : e ∈ (deleteReportCascade cid acc r).1) : e.1 ≠ Key.comment cid r.id mid := by
  intro heq
  simp only [deleteReportCascade] at h
  have h1 : e ∈ (commentsIn acc.1 cid r.id).foldl
      (fun st m => kvDel st (Key.comment cid r.id m.id)) acc.1 := (mem_kvDel _ _ _ h).1
  have hacc : e ∈ acc.1 := commentFold_mem cid r.id _ _ e h1
  cases e with
  | mk k v =>
    simp only at heq
    subst heq
    have hwfe := hwf _ hacc
    cases v with
    | company c => simp [wfEntry] at hwfe
    | report rr => simp [wfEntry] at hwfe
    | comment m =>
      simp only [wfEntry, decide_eq_true_eq] at hwfe
      have hmem : m ∈ commentsIn acc.1 cid r.id := by
        rw [commentsIn, List.mem_filterMap]
        exact ⟨(Key.comment cid r.id mid, KVal.comment m), hacc, by simp⟩
      have := commentFold_removes cid r.id (commentsIn acc.1 cid r.id) acc.1 m hmem
        (Key.comment cid r.id mid, KVal.comment m) h1
      simp only at this
      exact this (by rw [hwfe])

theorem cascade_blob (cid : String) (acc : KV × Blobs) (r : Report) :
    (r.filePath ≠ "" → r.filePath ∉ (deleteReportCascade cid acc r).2.reportFiles) ∧
    (∀ p, p ∉ acc.2.reportFiles → p ∉ (deleteReportCascade cid acc r).2.reportFiles) := by
  simp only [deleteReportCascade]
  by_cases hfp : r.filePath ≠ ""
  · rw [if_pos hfp]
    constructor
    · intro _ hmem
      rw [blobRemoveReport] at hmem
      simp only [List.mem_filter, decide_eq_true_eq] at hmem
      exact hmem.2 rfl
    · intro p hp hmem
      rw [blobRemoveReport] at hmem
      simp only [List.mem_filter, decide_eq_true_eq] at hmem
      exact hp hmem.1
  · rw [if_neg hfp]
    exact ⟨fun h => absurd h hfp, fun p hp => hp⟩

theorem reportFold_facts (cid : String) :
    ∀ (rs : List Report) (acc : KV × Blobs), KVWF acc.1 →
      (∀ e, e ∈ (rs.foldl (deleteReportCascade cid) acc).1 → e ∈ acc.1) ∧
      (∀ r ∈ rs, ∀ e ∈ (rs.foldl (deleteReportCascade cid) acc).1,
        e.1 ≠ Key.report cid r.id ∧ ∀ mid, e.1 ≠ Key.comment cid r.id mid) ∧
      (∀ r ∈ rs, r.filePath ≠ "" →
        r.filePath ∉ (rs.foldl (deleteReportCascade cid) acc).2.reportFiles) ∧
      (∀ p, p ∉ acc.2.reportFiles →
        p ∉ (rs.foldl (deleteReportCascade cid) acc).2.reportFiles) := by
  intro rs
  induction rs with
  | nil =>
    intro acc _
    refine ⟨fun e he => he, ?_, ?_, fun p hp => hp⟩
    · intro r hr; exact absurd hr (List.not_mem_nil r)
    · intro r hr; exact absurd hr (List.not_mem_nil r)
  | cons r0 rest ih =>
    intro acc hwf
    have hfold : (r0 :: rest).foldl (deleteReportCascade cid) acc =
        rest.foldl (deleteReportCascade cid) (deleteReportCascade cid acc r0) := rfl
    have hwf1 : KVWF (deleteReportCascade cid acc r0).1 :=
      fun e he => hwf e (cascade_mem cid acc r0 e he)
    obtain ⟨ihmem, ihrem, ihblob, ihpres⟩ := ih (deleteReportCascade cid acc r0) hwf1
    rw [hfold]
    refine ⟨?_, ?_, ?_, ?_⟩
    · intro e he
      exact cascade_mem cid acc r0 e (ihmem e he)
    · intro r hr e he
      rcases List.mem_cons.mp hr with h | h
      · subst h
        exact ⟨cascade_report_removed cid acc r e (ihmem e he),
          fun mid => cascade_comment_removed cid acc r hwf mid e (ihmem e he)⟩
      · exact ihrem r h e he
    · intro r hr hfp
      rcases List.mem_cons.mp hr with h | h
      · subst h
        exact ihpres r.filePath ((cascade_blob cid acc r).1 hfp)
      · exact ihblob r h hfp
    · intro p hp
      exact ihpres p ((cascade_blob cid acc r0).2 p hp)

/-- Claim C9: deleting a company cascades.  From a well-formed store that
holds the company, the delete handler reports success and afterwards the
company record, every report record keyed under the company, and every
comment record keyed under any of the company's reports are gone from the
store; every report's stored blob (filePath, nonempty in every record the
upload handler writes) is removed from the reports bucket; a subsequent
list-reports call for the company returns the empty collection and a
get-company lookup reports not found. -/
theorem C9_delete_company_cascade (s : KV) (b : Blobs) (cid : String)
    (hwf : KVWF s) (c0 : KVal) (hc : kvGet s (Key.company cid) = some c0)
    (hc0 : ∃ c, c0 = KVal.company c) :
    (deleteCompany s b cid).2.2 = true ∧
    kvGet (deleteCompany s b cid).1 (Key.company cid) = none ∧
    (∀ rid, kvGet (deleteCompany s b cid).1 (Key.report cid rid) = none) ∧
    (∀ r ∈ reportsIn s cid, ∀ mid,
      kvGet (deleteCompany s b cid).1 (Key.comment cid r.id mid) = none) ∧
    (∀ r ∈ reportsIn s cid, r.filePath ≠ "" →
      r.filePath ∉ (deleteCompany s b cid).2.1.reportFiles) ∧
    listReports (deleteCompany s b cid).1 cid = [] ∧
    getCompanyFound (deleteCompany s b cid).1 cid = false := by
  obtain ⟨c, hcc⟩ := hc0
  subst hcc
  simp only [deleteCompany, hc]
  set b1 := (match c.iconUrl with
    | some u => if u ≠ "" then blobRemoveIcon b ("company-icons/" ++ lastSegment u) else b
    | none => b) with hb1
  obtain ⟨hmem, hrem, hblob, _⟩ := reportFold_facts cid (reportsIn s cid) (s, b1) hwf
  have hfinal_mem : ∀ e, e ∈ kvDel ((reportsIn s cid).foldl (deleteReportCascade cid)
      (s, b1)).1 (Key.company cid) → e ∈ s := by
    intro e he
    exact hmem e (mem_kvDel _ _ _ he).1
  refine ⟨by trivial, kvGet_kvDel_self _ _, ?_, ?_, ?_, ?_, ?_⟩
  · intro rid
    rw [kvGet_none_iff]
    intro e he heq
    have hes : e ∈ s := hfinal_mem e he
    cases e with
    | mk k v =>
      simp only at heq
      subst heq
      have hwfe := hwf _ hes
      cases v with
      | company cc => simp [wfEntry] at hwfe
      | comment m => simp [wfEntry] at hwfe
      | report r =>
        simp only [wfEntry, decide_eq_true_eq] at hwfe
        have hrmem : r ∈ reportsIn s cid := by
          rw [reportsIn, List.mem_filterMap]
          exact ⟨(Key.report cid rid, KVal.report r), hes, by simp⟩
        have := (hrem r hrmem (Key.report cid rid, KVal.report r)
          (mem_kvDel _ _ _ he).1).1
        simp only at this
        exact this (by rw [hwfe.1])
  · intro r hr mid
    rw [kvGet_none_iff]
    intro e he heq
    have := (hrem r hr e (mem_kvDel _ _ _ he).1).2 mid
    exact this heq
  · intro r hr hfp
    exact hblob r hr hfp
  · rw [listReports]
    have hempty : reportsIn (kvDel ((reportsIn s cid).foldl (deleteReportCascade cid)
        (s, b1)).1 (Key.company cid)) cid = [] := by
      rw [List.eq_nil_iff_forall_not_mem]
      intro r hrm
      rw [reportsIn, List.mem_filterMap] at hrm
      obtain ⟨e, he, hmatch⟩ := hrm
      cases e with
      | mk k v =>
        cases k with
        | company id => simp at hmatch
        | comment a b c => simp at hmatch
        | report cid2 rid2 =>
          cases v with
          | company cc => simp at hmatch
          | comment m => simp at hmatch
          | report rr =>
            simp only at hmatch
            by_cases hc2 : cid2 = cid
            · rw [if_pos hc2] at hmatch
              have hrr : rr = r := Option.some.inj hmatch
              have hes : (Key.report cid2 rid2, KVal.report rr) ∈ s := hfinal_mem _ he
              have hwfe := hwf _ hes
              simp only [wfEntry, decide_eq_true_eq] at hwfe
              have hrmem : rr ∈ reportsIn s cid := by
                rw [reportsIn, List.mem_filterMap]
                refine ⟨(Key.report cid2 rid2, KVal.report rr), hes, by simp [hc2]⟩
              have := (hrem rr hrmem (Key.report cid2 rid2, KVal.report rr)
                (mem_kvDel _ _ _ he).1).1
              simp only at this
              exact this (by rw [hwfe.1, hc2])
            · rw [if_neg hc2] at hmatch
              exact Option.noConfusion hmatch
    rw [hempty]
    rfl
  · rw [getCompanyFound, kvGet_kvDel_self]

/-- Witness for C9 on the demo store: a company with two reports, each
carrying a comment, and both blobs present. -/
theorem C9_delete_company_cascade_witness :
    KVWF demoStore ∧
    ((deleteCompany demoStore demoBlobs "co").2.2 = true ∧
     kvGet (deleteCompany demoStore demoBlobs "co").1 (Key.company "co") = none ∧
     (∀ rid, kvGet (deleteCompany demoStore demoBlobs "co").1 (Key.report "co" rid) = none) ∧
     (∀ r ∈ reportsIn demoStore "co", ∀ mid,
       kvGet (deleteCompany demoStore demoBlobs "co").1 (Key.comment "co" r.id mid) = none) ∧
     (∀ r ∈ reportsIn demoStore "co", r.filePath ≠ "" →
       r.filePath ∉ (deleteCompany demoStore demoBlobs "co").2.1.reportFiles) ∧
     listReports (deleteCompany demoStore demoBlobs "co").1 "co" = [] ∧
     getCompanyFound (deleteCompany demoStore demoBlobs "co").1 "co" = false) := by
  refine ⟨show ∀ e ∈ demoStore, wfEntry e = true by decide, ?_⟩
  exact C9_delete_company_cascade demoStore demoBlobs "co"
    (show ∀ e ∈ demoStore, wfEntry e = true by decide)
    (KVal.company demoCompany) (by rfl) ⟨demoCompany, rfl⟩

/-- Claim C3 (amended): company-mutation cache invalidation.  Every one of
the six company mutations removes, synchronously at its start, every cache
entry whose key contains the substring 'companies'; consequently a
companyApi.getAll issued after the mutation with no identical request
pending misses the cache and performs a fresh network fetch.  The
guarantee does not extend to reads interleaved across the mutation: a
getAll response computed before the mutation but delivered after it
repopulates the cache with pre-mutation data (see the counterexample). -/
theorem C3_mutation_invalidation :
    (∀ (m : CompanyMutation) (id : String) (c : Cache) (k : String),
      strIncludes k "companies" = true → cacheFind (mutationClear m id c) k = none) ∧
    (∀ (s : ClientState) (m : CompanyMutation) (id : String) (now : Int),
      pendFind s.pending (requestKey (API_BASE_URL ++ "/companies") getAllOpts) = none →
      (getAllStart { s with cache := mutationClear m id s.cache } now).1 =
        .fetched s.nextPid ∧
      (getAllStart { s with cache := mutationClear m id s.cache } now).2.fetches =
        s.fetches + 1) := by
  have hclear : ∀ (m : CompanyMutation) (id : String) (c : Cache) (k : String),
      strIncludes k "companies" = true → cacheFind (mutationClear m id c) k = none := by
    intro m id c k hk
    cases m with
    | delete =>
      rw [mutationClear, clearCachePattern]
      exact cacheFind_filter_none _ _ k (cacheFind_clearCachePattern c "companies" k hk)
    | create => exact cacheFind_clearCachePattern c "companies" k hk
    | update => exact cacheFind_clearCachePattern c "companies" k hk
    | updateOrder => exact cacheFind_clearCachePattern c "companies" k hk
    | uploadIcon => exact cacheFind_clearCachePattern c "companies" k hk
    | removeIcon => exact cacheFind_clearCachePattern c "companies" k hk
  refine ⟨hclear, ?_⟩
  intro s m id now hpend
  have hfind : cacheFind (mutationClear m id s.cache) "companies_getAll" = none :=
    hclear m id s.cache "companies_getAll" (by decide)
  have hmiss : cacheHit (mutationClear m id s.cache) (some "companies_getAll")
      getAllOpts now = none := by
    simp [cacheHit, isGetLike, getAllOpts, getCachedData, hfind, jsTruthy]
  constructor
  · simp [getAllStart, makeRequestStart, hmiss, hpend]
  · simp [getAllStart, makeRequestStart, hmiss, hpend]

/-- Witness for C3 at a concrete state: a delete mutation clears the
cached company list and the next getAll fetches. -/
theorem C3_mutation_invalidation_witness :
    (strIncludes "companies_getAll" "companies" = true) ∧
    cacheFind
      (mutationClear CompanyMutation.delete "co"
        (setCachedData [] "companies_getAll" (Json.arr []) 0)) "companies_getAll" = none ∧
    (getAllStart { emptyClient with
        cache := mutationClear CompanyMutation.delete "co"
          (setCachedData [] "companies_getAll" (Json.arr []) 0) } 1).1 = .fetched 0 := by
  refine ⟨by decide, ?_, ?_⟩
  · exact C3_mutation_invalidation.1 CompanyMutation.delete "co"
      (setCachedData [] "companies_getAll" (Json.arr []) 0) "companies_getAll" (by decide)
  · exact (C3_mutation_invalidation.2
      { emptyClient with
        cache := mutationClear CompanyMutation.delete "co"
          (setCachedData [] "companies_getAll" (Json.arr []) 0) }
      CompanyMutation.delete "co" 1 (by rfl)).1

/-- Counterexample to claim C3 as stated: reads interleaved with a
mutation can re-cache pre-mutation data.  Trace, at the event level of the
single-threaded client: a getAll starts at time 0 and its fetch is issued;
the server computes its reply from the pre-mutation store (the list
holding only demoCompany); companyApi.create starts at time 1, clearing
the cache, and its POST is processed by the server (store gains newCo) and
completes successfully at time 2; only then does the getAll response
arrive, and its continuation at time 3 caches the pre-mutation list; a
second getAll at time 4, well inside the TTL and after the successful
mutation, is answered from the cache with the pre-mutation list, which
differs from the current server list. -/
theorem C3_counterexample :
    (companyCreateComplete
      (companyCreateStart (getAllStart emptyClient 0).2 "body" 1).2
      "body" (.response 200 "" (okEnvelope (jsonOfCompany newCo))) 2).1 =
      .ok (some (jsonOfCompany newCo)) ∧
    createCompany (mkStore [demoCompany]) "B" "B" "t" "" "b-id" 1 =
      some (serverAfterCreate, newCo) ∧
    (getAllStart
      (getAllComplete
        (companyCreateComplete
          (companyCreateStart (getAllStart emptyClient 0).2 "body" 1).2
          "body" (.response 200 "" (okEnvelope (jsonOfCompany newCo))) 2).2
        (.response 200 "" (okEnvelope (jsonOfCompanies (listCompanies (mkStore [demoCompany])))))
        3).2
      4).1 = .cached (jsonOfCompanies (listCompanies (mkStore [demoCompany]))) ∧
    listCompanies (mkStore [demoCompany]) = [demoCompany] ∧
    listCompanies serverAfterCreate = [demoCompany, newCo] ∧
    [demoCompany] ≠ [demoCompany, newCo] := by
  exact ⟨rfl, rfl, rfl, rfl, rfl, by decide⟩

end InvestApp
